import Mathlib

/-!
Verification of the formatting-preserving find-and-replace core of
`word_document_server/utils/document_utils.py`.

The embedding models Python strings as `List Char`, python-docx runs as
records of (text, opaque style, ghost identity), and the in-place list
mutations of the source as explicit state passing over run lists.
Python exceptions (IndexError, operations on detached lxml elements)
are modelled with `Except String`.  A run element (`w:r`) is modelled
with a single text node; the opaque style attributes are copied verbatim
by clones and splits, exactly as `copy.deepcopy` does in the source.
-/

namespace DocxRepl

abbrev Txt := List Char

/-- One `text.replace(c, '')` step of `normalize_text_for_search`. -/
def removeChar (c : Char) (t : Txt) : Txt := t.filter (fun x => x ≠ c)

/-- One `text.replace(a, b)` step (single-character patterns). -/
def replaceChar (a b : Char) (t : Txt) : Txt := t.map (fun x => if x = a then b else x)

/-- `normalize_text_for_search` (document_utils.py lines 649-672): deletes
zero-width space, zero-width non-joiner, zero-width joiner, soft hyphen and
BOM, then converts NBSP to an ordinary space. -/
def normalize_text_for_search (t : Txt) : Txt :=
  replaceChar '\u00a0' ' '
    (removeChar '\ufeff'
      (removeChar '\u00ad'
        (removeChar '\u200d'
          (removeChar '\u200c'
            (removeChar '\u200b' t)))))

/-- The characters deleted by `normalize_text_for_search`. -/
def invisibleChar (c : Char) : Bool :=
  c = '\u200b' || c = '\u200c' || c = '\u200d' || c = '\u00ad' || c = '\ufeff'

/-- The character conversion performed by `normalize_text_for_search`. -/
def convChar (c : Char) : Char := if c = '\u00a0' then ' ' else c

/-- Python `str.find(needle, start)`: the least `i ≥ start` with
`needle` occurring at `i` and fitting inside the haystack; `none` models
Python's `-1`. -/
def pyFind (hay needle : Txt) (start : Nat) : Option Nat :=
  (List.range (hay.length + 1)).find? (fun i =>
    decide (start ≤ i) && decide (i + needle.length ≤ hay.length) &&
    decide ((hay.drop i).take needle.length = needle))

/-- Python substring containment `needle in hay`. -/
def containsSub (hay needle : Txt) : Bool := (pyFind hay needle 0).isSome

/-- The match-collection loop of `process_paragraph_standard`
(lines 794-801): record `(p, p + len(needle))` and resume the scan at
`p + 1`.  The fuel bounds the loop; `hay.length + 2` always suffices
because each found position is strictly larger than the previous one. -/
def collectMatchesAux (hay needle : Txt) : Nat → Nat → List (Nat × Nat)
  | _, 0 => []
  | start, fuel+1 =>
    match pyFind hay needle start with
    | none => []
    | some p => (p, p + needle.length) :: collectMatchesAux hay needle (p+1) fuel

def collectMatches (hay needle : Txt) : List (Nat × Nat) :=
  collectMatchesAux hay needle 0 (hay.length + 2)

/-- A run: the minimal unit of uniformly styled text.  `style` stands for
the run's full opaque style attributes (`w:rPr` etc.), copied verbatim and
never interpreted; `id` is a ghost identity tag standing for lxml object
identity (`some` for elements present when a paragraph is first indexed,
`none` for freshly created clones). -/
structure Run where
  text : Txt
  style : Nat
  id : Option Nat
deriving DecidableEq

/-- `clone_run_with_text` (lines 587-614): deep-copies the run element
(keeping all style attributes), puts `t` into its first text node and
empties the others.  The copy is a fresh object, hence ghost id `none`. -/
def clone_run_with_text (source : Run) (t : Txt) : Run :=
  { text := t, style := source.style, id := none }

/-- `split_run_at` (lines 617-646), on the run at position `j` of the
paragraph's run sequence.  Returns the `(left_text, right_text)` pair and
the updated run sequence: for an interior split the original run keeps the
left text and a clone carrying the right text is inserted right after it;
border offsets leave the sequence unchanged. -/
def split_run_at (runs : List Run) (j : Nat) (split_index : Nat) :
    (Txt × Txt) × List Run :=
  match runs.get? j with
  | none => (([], []), runs)
  | some run =>
    let original_text := run.text
    if split_index = 0 then (([], original_text), runs)
    else if original_text.length ≤ split_index then ((original_text, []), runs)
    else
      let left_text := original_text.take split_index
      let right_text := original_text.drop split_index
      ((left_text, right_text),
        runs.take j ++
          [{ run with text := left_text }, clone_run_with_text run right_text] ++
          runs.drop (j+1))

/-- Length of a run's normalized text. -/
def normLen (r : Run) : Nat := (normalize_text_for_search r.text).length

/-- The paragraph's flattened text: normalized concatenation of the runs'
text (recomputed from scratch by `process_paragraph`, lines 757-767). -/
def flatNorm (runs : List Run) : Txt :=
  (runs.map (fun r => normalize_text_for_search r.text)).flatten

/-- Start offset of run `i` inside the flattened text. -/
def spanStart (runs : List Run) (i : Nat) : Nat :=
  ((runs.take i).map normLen).sum

/-- The run map built by `process_paragraph` (lines 757-767): one
`(start_pos, end_pos, run_idx)` entry per run with nonempty normalized
text, in run order. -/
def run_map (runs : List Run) : List (Nat × Nat × Nat) :=
  (List.range runs.length).filterMap (fun i =>
    if spanStart runs i < spanStart runs (i+1) then
      some (spanStart runs i, spanStart runs (i+1), i)
    else none)

/-- `build_xml_run_map` (lines 675-723): tree traversal collecting every
run element; a run with nonempty raw text contributes an entry (even when
its normalized text is empty), keyed by the run element itself. -/
def build_xml_run_map (runs : List Run) : Txt × List (Nat × Nat × Run) :=
  (flatNorm runs,
   (List.range runs.length).filterMap (fun i =>
     match runs.get? i with
     | some r => if r.text ≠ [] then some (spanStart runs i, spanStart runs (i+1), r) else none
     | none => none))

/-- The replacement-distribution loop of `process_paragraph_standard`
(lines 859-884): every covered run but the last absorbs
`min(len(run.text), len(remaining))` characters (at least one when the
run is empty), the final covered run absorbs the whole remainder; no
clone is created once the replacement text is exhausted.  Returns the
clones and the leftover text. -/
def buildReplacementAux : List Run → Txt → List Run × Txt
  | [], remaining => ([], remaining)
  | original :: rest, remaining =>
    if remaining = [] then ([], remaining)
    else if rest = [] then ([clone_run_with_text original remaining], [])
    else
      let len0 := original.text.length
      let chars_to_take := if 0 < len0 then min len0 remaining.length else 1
      let segment := remaining.take chars_to_take
      let remaining1 := remaining.drop chars_to_take
      let done := buildReplacementAux rest remaining1
      ((if segment = [] then [] else [clone_run_with_text original segment]) ++ done.1, done.2)

/-- Lines 859-891 including the trailing `while remaining_text` loop,
which clones the last covered run once more if text is left over. -/
def buildReplacement (runs_to_replace : List Run) (new_text : Txt) : List Run :=
  let done := buildReplacementAux runs_to_replace new_text
  done.1 ++
    (if done.2 ≠ [] ∧ runs_to_replace ≠ [] then
      [clone_run_with_text (runs_to_replace.getLastD ⟨[], 0, none⟩) done.2]
    else [])

/-- The overlap computation of lines 809-814 (also 929-935): run-map
entries overlapping `[ms, me)` with the per-run overlap offsets
`max(0, ms - start)` and `min(end - start, me - start)`. -/
def affectedOf (rm : List (Nat × Nat × Nat)) (ms me : Nat) :
    List (Nat × Nat × Nat × Nat) :=
  rm.filterMap (fun e =>
    if e.1 < me ∧ ms < e.2.1 then
      some (e.2.2, ms - e.1, min (e.2.1 - e.1) (me - e.1), e.1)
    else none)

/-- Processing of one match in `process_paragraph_standard`
(lines 806-905).  The run map is the stale one built before any match was
processed; `runs` is the live run sequence.  The returned flag records
whether `count` was incremented.  `.error` models a Python exception
(an out-of-range `runs[first_run_idx]`, or `runs[-1]` on an empty
sequence). -/
def processMatchStd (rm : List (Nat × Nat × Nat)) (new_text : Txt)
    (runs : List Run) (m : Nat × Nat) : Except String (List Run × Bool) :=
  let ms := m.1
  let me := m.2
  let affected_runs := affectedOf rm ms me
  match affected_runs with
  | [] => .ok (runs, false)
  | a0 :: arest =>
    let aL := (a0 :: arest).getLastD a0
    let F := a0.1
    let osf := a0.2.1
    let L0 := aL.1
    let oel := aL.2.2.1
    match runs.get? F with
    | none => .error "IndexError: runs[first_run_idx] out of range"
    | some _first_run =>
      let runs1 := if 0 < osf then (split_run_at runs F osf).2 else runs
      let F1 := if 0 < osf then F + 1 else F
      let L1 := if 0 < osf then L0 + 1 else L0
      let lastIdx := if L1 < runs1.length then L1 else runs1.length - 1
      match runs1.get? lastIdx with
      | none => .error "IndexError: runs[-1] on empty run sequence"
      | some last_run =>
        let runs2 := if oel < last_run.text.length then (split_run_at runs1 lastIdx oel).2 else runs1
        let rtrEnd := min (L1 + 1) runs2.length
        let runs_to_replace := (runs2.take rtrEnd).drop F1
        if runs_to_replace = [] then .ok (runs2, false)
        else
          let replacement_runs := buildReplacement runs_to_replace new_text
          let runs3 :=
            if replacement_runs = [] then runs2
            else runs2.take F1 ++ replacement_runs ++ runs2.drop rtrEnd
          .ok (runs3, true)

/-- The `for match_start, match_end in reversed(matches)` loop
(line 806); the caller passes the reversed match list. -/
def processMatchesStd (rm : List (Nat × Nat × Nat)) (new_text : Txt) :
    List (Nat × Nat) → List Run → Except String (List Run × Nat)
  | [], runs => .ok (runs, 0)
  | m :: rest, runs =>
    match processMatchStd rm new_text runs m with
    | .error e => .error e
    | .ok (runs1, flag) =>
      match processMatchesStd rm new_text rest runs1 with
      | .error e => .error e
      | .ok (runs2, n) => .ok (runs2, (if flag then 1 else 0) + n)

/-- `process_paragraph_standard` (lines 786-905). -/
def process_paragraph_standard (runs : List Run) (full_text : Txt)
    (rm : List (Nat × Nat × Nat)) (old_text_norm new_text : Txt) :
    Except String (List Run × Nat) :=
  if full_text = [] ∨ ¬ containsSub full_text old_text_norm then .ok (runs, 0)
  else processMatchesStd rm new_text (collectMatches full_text old_text_norm).reverse runs

/-- Overlap computation of `process_paragraph_xml` (lines 929-935); the
entries keep the (stale) run element itself. -/
def affectedXmlOf (xrm : List (Nat × Nat × Run)) (ms me : Nat) :
    List (Run × Nat × Nat × Nat) :=
  xrm.filterMap (fun e =>
    if e.1 < me ∧ ms < e.2.1 then
      some (e.2.2, ms - e.1, min (e.2.1 - e.1) (me - e.1), e.1)
    else none)

/-- Replacement distribution of `process_paragraph_xml` (lines 943-982):
like the standard path but proportioned by the overlap length
`overlap_end - overlap_start` instead of the run's text length. -/
def buildReplacementXmlAux : List (Run × Nat × Nat × Nat) → Txt → List Run × Txt
  | [], remaining => ([], remaining)
  | a :: rest, remaining =>
    if remaining = [] then ([], remaining)
    else if rest = [] then ([clone_run_with_text a.1 remaining], [])
    else
      let seg_len := a.2.2.1 - a.2.1
      let chars_to_take := if 0 < seg_len then min seg_len remaining.length else 1
      let segment := remaining.take chars_to_take
      let remaining1 := remaining.drop chars_to_take
      let done := buildReplacementXmlAux rest remaining1
      ((if segment = [] then [] else [clone_run_with_text a.1 segment]) ++ done.1, done.2)

/-- Lines 943-1004 including the trailing `while remaining_text` loop
(clone the last affected element once more). -/
def buildReplacementXml (affected : List (Run × Nat × Nat × Nat)) (new_text : Txt) :
    List Run :=
  let done := buildReplacementXmlAux affected new_text
  done.1 ++
    (if done.2 ≠ [] ∧ affected ≠ [] then
      [clone_run_with_text (affected.getLastD (⟨[], 0, none⟩, 0, 0, 0)).1 done.2]
    else [])

/-- Locate a run element by object identity in the live run sequence.
Clones (ghost id `none`) were not in the stale map, so lookups are only
ever for `some` ids. -/
def findRunIdxById (runs : List Run) (oid : Option Nat) : Option Nat :=
  match oid with
  | none => none
  | some k => runs.findIdx? (fun r => r.id = some k)

/-- The removal loop of lines 1013-1015: `run_element.getparent().remove(...)`
for each affected element; on an element already detached from the
paragraph, `getparent()` is `None` and Python raises. -/
def removeAffectedXml : List (Run × Nat × Nat × Nat) → List Run → Except String (List Run)
  | [], runs => .ok runs
  | a :: rest, runs =>
    match findRunIdxById runs a.1.id with
    | none => .error "AttributeError: remove on detached run element"
    | some j => removeAffectedXml rest (runs.eraseIdx j)

/-- Processing of one match in `process_paragraph_xml` (lines 927-1018):
no boundary splitting; whole affected elements are replaced by clones
inserted before the first affected element (`addprevious`, which fails on
a detached element). -/
def processMatchXml (xrm : List (Nat × Nat × Run)) (new_text : Txt)
    (runs : List Run) (m : Nat × Nat) : Except String (List Run × Bool) :=
  let affected := affectedXmlOf xrm m.1 m.2
  match affected with
  | [] => .ok (runs, false)
  | a0 :: _ =>
    let replacement_runs := buildReplacementXml affected new_text
    if replacement_runs = [] then .ok (runs, true)
    else
      match findRunIdxById runs a0.1.id with
      | none => .error "detached element: addprevious on removed run"
      | some ip =>
        match removeAffectedXml affected (runs.take ip ++ replacement_runs ++ runs.drop ip) with
        | .error e => .error e
        | .ok runs2 => .ok (runs2, true)

/-- The reversed-match loop of `process_paragraph_xml` (line 927). -/
def processMatchesXml (xrm : List (Nat × Nat × Run)) (new_text : Txt) :
    List (Nat × Nat) → List Run → Except String (List Run × Nat)
  | [], runs => .ok (runs, 0)
  | m :: rest, runs =>
    match processMatchXml xrm new_text runs m with
    | .error e => .error e
    | .ok (runs1, flag) =>
      match processMatchesXml xrm new_text rest runs1 with
      | .error e => .error e
      | .ok (runs2, n) => .ok (runs2, (if flag then 1 else 0) + n)

/-- `process_paragraph_xml` (lines 907-1018). -/
def process_paragraph_xml (runs : List Run) (xml_full_text : Txt)
    (xrm : List (Nat × Nat × Run)) (old_text_norm new_text : Txt) :
    Except String (List Run × Nat) :=
  if xml_full_text = [] ∨ ¬ containsSub xml_full_text old_text_norm then .ok (runs, 0)
  else processMatchesXml xrm new_text (collectMatches xml_full_text old_text_norm).reverse runs

/-- A paragraph: optional style name, and its runs.  `wrapped` records
whether the runs sit inside wrapper elements (hyperlinks, content
controls), in which case `paragraph.runs` — the python-docx direct-child
accessor — cannot see them and only the XML traversal can. -/
structure Paragraph where
  styleName : Option Txt
  wrapped : Bool
  runs : List Run
deriving DecidableEq

/-- The runs visible to the `paragraph.runs` accessor. -/
def Paragraph.directRuns (p : Paragraph) : List Run :=
  if p.wrapped then [] else p.runs

/-- `para.style and para.style.name.startswith("TOC")` (lines 753-754 and
153-154). -/
def Paragraph.isTOC (p : Paragraph) : Bool :=
  match p.styleName with
  | some s => "TOC".data.isPrefixOf s
  | none => false

/-- `process_paragraph` (lines 749-784): skip TOC paragraphs, try the
standard run index, fall back to the XML index.  The third component
collects the `_dbg` output (printed only when the debug environment
variable is set). -/
def process_paragraph (dbg : Bool) (old_text new_text : Txt) (p : Paragraph) :
    Except String (Paragraph × Nat × List String) :=
  if p.isTOC then .ok (p, 0, [])
  else
    let direct := p.directRuns
    let full_text := flatNorm direct
    let rm := run_map direct
    let normalized_old_text := normalize_text_for_search old_text
    if containsSub full_text normalized_old_text then
      match process_paragraph_standard direct full_text rm normalized_old_text new_text with
      | .error e => .error e
      | .ok (runs1, n) =>
        .ok ({ p with runs := if p.wrapped then p.runs else runs1 }, n,
          if dbg then
            ["[find_replace] Standard path: match found in paragraph.runs"] ++
            (if full_text = [] ∨ ¬ containsSub full_text normalized_old_text then []
             else ("[find_replace] Standard path: " ++
                     toString (collectMatches full_text normalized_old_text).length ++
                     " match(es) in paragraph") ::
                  List.replicate n "[find_replace] Standard path: one replacement applied")
          else [])
    else
      let xml := build_xml_run_map p.runs
      if containsSub xml.1 normalized_old_text then
        match process_paragraph_xml p.runs xml.1 xml.2 normalized_old_text new_text with
        | .error e => .error e
        | .ok (runs1, n) =>
          .ok ({ p with runs := runs1 }, n,
            if dbg then
              ["[find_replace] Standard path: no match or no direct runs; trying XML fallback",
               "[find_replace] XML fallback: match found in nested runs"] ++
              (if xml.1 = [] ∨ ¬ containsSub xml.1 normalized_old_text then []
               else ("[find_replace] XML path: " ++
                       toString (collectMatches xml.1 normalized_old_text).length ++
                       " match(es) in paragraph") ::
                    List.replicate n "[find_replace] XML path: one replacement applied")
            else [])
      else
        .ok (p, 0,
          if dbg then
            ["[find_replace] Standard path: no match or no direct runs; trying XML fallback",
             "[find_replace] XML fallback: no match in this paragraph"]
          else [])

/-- A document: body paragraphs, and tables as rows of cells of
paragraphs (lines 1020-1029 iterate exactly this shape). -/
structure Document where
  paragraphs : List Paragraph
  tables : List (List (List (List Paragraph)))
deriving DecidableEq

/-- The common shape of the paragraph/cell/row/table loops of
lines 1020-1029: process each element in order, summing counts and
concatenating debug output; the absence of exception handling in the
source means an `.error` aborts the whole pass. -/
def foldProc {a b : Type} (f : a → Except String (b × Nat × List String)) :
    List a → Except String (List b × Nat × List String)
  | [] => .ok ([], 0, [])
  | x :: rest =>
    match f x with
    | .error e => .error e
    | .ok (y, n, lg) =>
      match foldProc f rest with
      | .error e => .error e
      | .ok (ys, m, lg1) => .ok (y :: ys, n + m, lg ++ lg1)

def processParas (dbg : Bool) (old_text new_text : Txt) :
    List Paragraph → Except String (List Paragraph × Nat × List String) :=
  foldProc (process_paragraph dbg old_text new_text)

def processCells (dbg : Bool) (old_text new_text : Txt) :
    List (List Paragraph) → Except String (List (List Paragraph) × Nat × List String) :=
  foldProc (processParas dbg old_text new_text)

def processRows (dbg : Bool) (old_text new_text : Txt) :
    List (List (List Paragraph)) →
      Except String (List (List (List Paragraph)) × Nat × List String) :=
  foldProc (processCells dbg old_text new_text)

def processTables (dbg : Bool) (old_text new_text : Txt) :
    List (List (List (List Paragraph))) →
      Except String (List (List (List (List Paragraph))) × Nat × List String) :=
  foldProc (processRows dbg old_text new_text)

/-- `find_and_replace_text_preserve_formatting` (lines 726-1032): process
every body paragraph, then every paragraph of every table cell, and
return the total replacement count.  There is no exception handling in
the source, so a per-paragraph failure aborts the whole pass
(`.error`).  `dbg` models the `MCP_WORD_DEBUG_FIND_REPLACE=1`
environment setting; the final component collects the debug output. -/
def find_and_replace_text_preserve_formatting (dbg : Bool) (doc : Document)
    (old_text new_text : Txt) : Except String (Document × Nat × List String) :=
  match processParas dbg old_text new_text doc.paragraphs with
  | .error e => .error e
  | .ok (body1, n1, lgB) =>
    match processTables dbg old_text new_text doc.tables with
    | .error e => .error e
    | .ok (tables1, n2, lgT) =>
      .ok ({ paragraphs := body1, tables := tables1 }, n1 + n2,
        lgB ++ lgT ++
          (if dbg then
            ["[find_replace] Total replacements: " ++ toString (n1 + n2)]
          else []))

/-- Python `str.replace(old, new)` scan for nonempty `old` (fuelled by the
haystack length). -/
def pyReplaceAux (old new : Txt) : Txt → Nat → Txt
  | s, 0 => s
  | s, fuel+1 =>
    match s with
    | [] => []
    | c :: rest =>
      if old.isPrefixOf s then new ++ pyReplaceAux old new (s.drop old.length) fuel
      else c :: pyReplaceAux old new rest fuel

/-- Python `str.replace(old, new)` (all occurrences, left to right,
non-overlapping; an empty `old` interleaves `new` around every char). -/
def pyReplace (s old new : Txt) : Txt :=
  if old = [] then new ++ (s.map (fun c => c :: new)).flatten
  else pyReplaceAux old new s (s.length + 1)

/-- `paragraph.text` as used by `find_and_replace_text`: the raw
concatenation of the direct runs' text. -/
def Paragraph.rawText (p : Paragraph) : Txt :=
  (p.directRuns.map Run.text).flatten

/-- One paragraph of `find_and_replace_text` (lines 137-176): skip TOC
paragraphs; otherwise replace inside every run whose own text contains
the search text, counting one replacement per such run. -/
def fnrSimplePara (old_text new_text : Txt) (p : Paragraph) : Paragraph × Nat :=
  if p.isTOC then (p, 0)
  else if containsSub p.rawText old_text then
    let updated := p.directRuns.map (fun r =>
      if containsSub r.text old_text then
        ({ r with text := pyReplace r.text old_text new_text }, 1)
      else (r, 0))
    ({ p with runs := if p.wrapped then p.runs else updated.map Prod.fst },
     (updated.map Prod.snd).sum)
  else (p, 0)

/-- The common shape of the nested loops of `find_and_replace_text`
(lines 163-174): process each element, summing counts. -/
def foldTot {a b : Type} (f : a → b × Nat) : List a → List b × Nat
  | [] => ([], 0)
  | x :: rest =>
    let h := f x
    let t := foldTot f rest
    (h.1 :: t.1, h.2 + t.2)

def fnrSimpleParas (old_text new_text : Txt) :
    List Paragraph → List Paragraph × Nat :=
  foldTot (fnrSimplePara old_text new_text)

def fnrSimpleCells (old_text new_text : Txt) :
    List (List Paragraph) → List (List Paragraph) × Nat :=
  foldTot (fnrSimpleParas old_text new_text)

def fnrSimpleRows (old_text new_text : Txt) :
    List (List (List Paragraph)) → List (List (List Paragraph)) × Nat :=
  foldTot (fnrSimpleCells old_text new_text)

def fnrSimpleTables (old_text new_text : Txt) :
    List (List (List (List Paragraph))) → List (List (List (List Paragraph))) × Nat :=
  foldTot (fnrSimpleRows old_text new_text)

/-- `find_and_replace_text` (lines 137-176): the plain replacement over
body paragraphs and table cells, skipping TOC paragraphs. -/
def find_and_replace_text (doc : Document) (old_text new_text : Txt) :
    Document × Nat :=
  let body := fnrSimpleParas old_text new_text doc.paragraphs
  let tbls := fnrSimpleTables old_text new_text doc.tables
  ({ paragraphs := body.1, tables := tbls.1 }, body.2 + tbls.2)

/-- The paragraph at position `(table t, row r, cell c, paragraph i)`. -/
def Document.tablePara (doc : Document) (t r c i : Nat) : Option Paragraph :=
  (doc.tables.get? t).bind fun tb =>
    (tb.get? r).bind fun rw =>
      (rw.get? c).bind fun cl => cl.get? i

/-- Is run `i`'s span `[spanStart i, spanStart (i+1))` entirely outside
the match span `m`? -/
def outsideMatch (orig : List Run) (i : Nat) (m : Nat × Nat) : Bool :=
  spanStart orig (i+1) ≤ m.1 || m.2 ≤ spanStart orig i

/-- Is run `i`'s span entirely outside every match span? -/
def outsideAllMatches (orig : List Run) (i : Nat) (mspans : List (Nat × Nat)) : Bool :=
  mspans.all (fun m => outsideMatch orig i m)

/-- Does run `r` descend from an original run (ghost id `some i`) whose
span lies entirely outside every match span? -/
def outPred (orig : List Run) (mspans : List (Nat × Nat)) (r : Run) : Bool :=
  match r.id with
  | some i => outsideAllMatches orig i mspans
  | none => false

/-- The sublist of runs that were originally present (ghost id `some i`)
and whose span lies entirely outside every match span. -/
def outsideFilter (orig : List Run) (mspans : List (Nat × Nat)) (l : List Run) : List Run :=
  l.filter (outPred orig mspans)

/-- The invariant holding while `process_paragraph_standard` works through
the (pairwise disjoint) matches from right to left on the live run
sequence `C`, with `R` the original sequence the stale run map was built
from: positions below `bnd` are untouched, the outside runs of the whole
sequence are exactly the original ones, and — when a previously processed
match started strictly inside run `bnd` — position `bnd` holds that run
truncated no lower than the previous match's start offset. -/
structure FrameInv (R : List Run) (M : List (Nat × Nat)) (C : List Run)
    (bnd mPrev : Nat) : Prop where
  take_eq : C.take bnd = R.take bnd
  filter_eq : outsideFilter R M C = outsideFilter R M R
  bnd_le : bnd ≤ R.length
  boundary : bnd < R.length →
    mPrev < spanStart R (bnd+1) ∧
    (spanStart R bnd < mPrev →
      ∃ w r0, R.get? bnd = some r0 ∧ mPrev - spanStart R bnd ≤ w ∧
        C.get? bnd = some { r0 with text := r0.text.take w })

/-- All paragraphs a document pass visits: the body and every table
cell. -/
def Document.allParas (doc : Document) : List Paragraph :=
  doc.paragraphs ++ doc.tables.flatten.flatten.flatten

/-- The safety condition of the amended C9: a paragraph is processed
without an exception if its ghost ids enumerate its run elements, and
either it is skipped (TOC), or the standard path handles it with pairwise
non-overlapping matches, or the XML fallback sees at most one match. -/
def ParaSafe (old_text : Txt) (p : Paragraph) : Prop :=
  (∀ i r, p.runs.get? i = some r → r.id = some i) ∧
  (p.isTOC = true ∨
    (containsSub (flatNorm p.directRuns) (normalize_text_for_search old_text) = true ∧
      List.Chain' (fun m1 m2 => m1.2 ≤ m2.1)
        (collectMatches (flatNorm p.directRuns) (normalize_text_for_search old_text))) ∨
    (containsSub (flatNorm p.directRuns) (normalize_text_for_search old_text) = false ∧
      (collectMatches (build_xml_run_map p.runs).1
        (normalize_text_for_search old_text)).length ≤ 1))

/-- A three-run paragraph with a single match, for the C1 and C9
witnesses. -/
def wFrameRuns : List Run :=
  [⟨"Hello ".data, 0, some 0⟩, ⟨"world".data, 1, some 1⟩, ⟨"!".data, 2, some 2⟩]

/-- A document whose single paragraph carries `wFrameRuns`. -/
def wSafeDoc : Document := ⟨[⟨none, false, wFrameRuns⟩], []⟩

/-- Forget the debug log, keeping the observable result (final state and
count). -/
def dropLog {b : Type} (x : Except String (b × Nat × List String)) :
    Except String (b × Nat) :=
  x.map (fun y => (y.1, y.2.1))

/-- A TOC-styled paragraph containing the search text (for the C6
witness). -/
def wTocPara : Paragraph := ⟨some "TOC 1".data, false, [⟨"abab".data, 2, some 0⟩]⟩

/-- A document holding `wTocPara` both in the body and in a table cell. -/
def wTocDoc : Document := ⟨[wTocPara], [[[[wTocPara]]]]⟩

/-- The five-run paragraph of the C1 counterexample: four `"a"` runs and a
final `"Z"` run (style 9, ghost id 4) lying outside every match span of
`"aaa"`. -/
def frameCexRuns : List Run :=
  [⟨"a".data, 0, some 0⟩, ⟨"a".data, 0, some 1⟩, ⟨"a".data, 0, some 2⟩,
   ⟨"a".data, 0, some 3⟩, ⟨"Z".data, 9, some 4⟩]

/-- The two-paragraph document of the C9 counterexample: the first
paragraph's run sits inside a wrapper (hyperlink) and contains two
matches of `"aaa"`; the second paragraph contains the search text in a
direct run. -/
def crashDoc : Document :=
  ⟨[⟨none, true, [⟨"aaaa".data, 0, some 0⟩]⟩,
    ⟨none, false, [⟨"xaaax".data, 1, some 0⟩]⟩], []⟩

theorem normalize_nil : normalize_text_for_search [] = [] := rfl

theorem normalize_cons (c : Char) (t : Txt) :
    normalize_text_for_search (c :: t) =
      if invisibleChar c then normalize_text_for_search t
      else convChar c :: normalize_text_for_search t := by
  simp only [normalize_text_for_search, removeChar, replaceChar, invisibleChar, convChar,
    List.filter_cons]
  by_cases h1 : c = '\u200b' <;> by_cases h2 : c = '\u200c' <;> by_cases h3 : c = '\u200d' <;>
    by_cases h4 : c = '\u00ad' <;> by_cases h5 : c = '\ufeff' <;>
    simp_all

theorem normalize_length_le (t : Txt) :
    (normalize_text_for_search t).length ≤ t.length := by
  induction t with
  | nil => simp [normalize_nil]
  | cons c t ih =>
      rw [normalize_cons]
      by_cases h : invisibleChar c <;> simp [h] <;> omega

theorem invisibleChar_convChar (c : Char) :
    invisibleChar (convChar c) = invisibleChar c := by
  by_cases h : c = ' ' <;> simp [convChar, h]
  subst h; decide

theorem convChar_convChar (c : Char) : convChar (convChar c) = convChar c := by
  by_cases h : c = ' ' <;> simp [convChar, h]

/-- C8: text normalization is idempotent:
`normalize_text_for_search (normalize_text_for_search s) =
normalize_text_for_search s` for every string `s`. -/
theorem normalize_text_for_search_idempotent (s : Txt) :
    normalize_text_for_search (normalize_text_for_search s) =
      normalize_text_for_search s := by
  induction s with
  | nil => rfl
  | cons c t ih =>
      rw [normalize_cons]
      by_cases h : invisibleChar c
      · simp [h, ih]
      · simp only [h, if_false, Bool.false_eq_true]
        rw [normalize_cons, invisibleChar_convChar, convChar_convChar]
        simp [h, ih]

/-- C2: for a run with text `T` at position `j` and a valid offset
`k ≤ len T`, `split_run_at` returns the pair `(T[:k], T[k:])`, and the
concatenation of all run texts of the paragraph — in particular of the
truncated original run followed by the newly inserted clone — is
unchanged. -/
theorem split_run_at_conservation (runs : List Run) (j k : Nat) (r : Run)
    (hj : runs.get? j = some r) (hk : k ≤ r.text.length) :
    (split_run_at runs j k).1 = (r.text.take k, r.text.drop k) ∧
    (((split_run_at runs j k).2.map Run.text).flatten =
      ((runs.map Run.text).flatten)) := by
  have hlt : j < runs.length := (List.get?_eq_some.mp hj).1
  unfold split_run_at
  rw [hj]
  by_cases h0 : k = 0
  · subst h0; simp
  · by_cases hbig : r.text.length ≤ k
    · have hkeq : k = r.text.length := le_antisymm hk hbig
      subst hkeq
      have hne : ¬ r.text = [] := by
        intro hemp
        exact h0 (by simp [hemp])
      simp [h0, hne, List.take_of_length_le (le_refl _),
        List.drop_eq_nil_of_le (le_refl _)]
    · simp only [h0, if_false, hbig, if_false]
      constructor
      · trivial
      · have hdecomp : runs = runs.take j ++ runs.drop j := (List.take_append_drop j runs).symm
        have hdrop : runs.drop j = r :: runs.drop (j+1) := by
          rw [List.drop_eq_getElem_cons hlt]
          congr 1
          simpa using (List.get?_eq_some.mp hj).2
        have hjoin : ∀ Y : Txt, r.text.take k ++ (r.text.drop k ++ Y) = r.text ++ Y := by
          intro Y
          rw [← List.append_assoc, List.take_append_drop]
        conv_rhs => rw [hdecomp, hdrop]
        simp [clone_run_with_text, List.append_assoc, hjoin]

/-- Witness for C2 at a concrete input. -/
theorem split_run_at_conservation_witness :
    (split_run_at [⟨"abc".data, 5, some 0⟩] 0 1).1 =
      ((⟨"abc".data, 5, some 0⟩ : Run).text.take 1,
       (⟨"abc".data, 5, some 0⟩ : Run).text.drop 1) ∧
    (((split_run_at [⟨"abc".data, 5, some 0⟩] 0 1).2.map Run.text).flatten =
      (([⟨"abc".data, 5, some 0⟩] : List Run).map Run.text).flatten) :=
  split_run_at_conservation [⟨"abc".data, 5, some 0⟩] 0 1 ⟨"abc".data, 5, some 0⟩
    rfl (by decide)

/-- C5: on a paragraph whose flattened text is `"ababab"`, replacing
`"ab"` by `"X"` yields flattened text `"XXX"` and a reported count of 3;
the locator finds the three match spans `(0,2), (2,4), (4,6)` and
`process_paragraph_standard` folds over the reversed list, i.e. processes
them in right-to-left order of match start. -/
theorem ababab_replace_all :
    process_paragraph false "ab".data "X".data ⟨none, false, [⟨"ababab".data, 5, some 0⟩]⟩ =
      .ok (⟨none, false,
            [⟨"X".data, 5, none⟩, ⟨"X".data, 5, none⟩, ⟨"X".data, 5, none⟩]⟩, 3, []) ∧
    collectMatches (flatNorm [⟨"ababab".data, 5, some 0⟩])
        (normalize_text_for_search "ab".data) = [(0, 2), (2, 4), (4, 6)] :=
  ⟨rfl, rfl⟩

/-- C7 (failing input): with an empty search text the match loop returns
the zero-width spans `(0,0), (1,1), (2,2)` on haystack `"ab"` — not the
empty sequence — and the replace pass actually splits the run and
replaces its second half, reporting one replacement instead of zero. -/
theorem empty_needle_yields_matches_and_replacement :
    collectMatches "ab".data [] = [(0, 0), (1, 1), (2, 2)] ∧
    process_paragraph false [] "X".data ⟨none, false, [⟨"ab".data, 3, some 0⟩]⟩ =
      .ok (⟨none, false, [⟨"a".data, 3, some 0⟩, ⟨"X".data, 3, none⟩]⟩, 1, []) :=
  ⟨rfl, rfl⟩

/-- C3 (failing input): with an empty replacement text the guard
`if replacement_runs and runs_to_replace:` (line 894) skips the removal,
so the matched runs are *not* removed: searching `"a"` in run `"ab"` with
replacement `""` splits the run into `"a"`, `"b"`, deletes nothing
(flattened text still `"ab"`), yet reports one replacement. -/
theorem empty_replacement_is_noop_not_deletion :
    process_paragraph false "a".data [] ⟨none, false, [⟨"ab".data, 3, some 0⟩]⟩ =
      .ok (⟨none, false, [⟨"a".data, 3, some 0⟩, ⟨"b".data, 3, none⟩]⟩, 1, []) ∧
    (([⟨"a".data, 3, some 0⟩, ⟨"b".data, 3, none⟩] : List Run).map Run.text).flatten
      = "ab".data :=
  ⟨rfl, rfl⟩

/-- C4 (failing input): the run `"wo​rd"` does match a search for
`"word"` (the containment check succeeds on normalized text), but the
boundary split applies the normalized offset 4 to the raw text of length
5, so the replace leaves the residue run `"d"`: the visible text after
replacing with `"X"` is `"Xd"`, not `"X"`. -/
theorem zwsp_match_leaves_residue :
    containsSub (flatNorm [⟨"wo​rd".data, 7, some 0⟩])
        (normalize_text_for_search "word".data) = true ∧
    process_paragraph false "word".data "X".data
        ⟨none, false, [⟨"wo​rd".data, 7, some 0⟩]⟩ =
      .ok (⟨none, false, [⟨"X".data, 7, none⟩, ⟨"d".data, 7, none⟩]⟩, 1, []) ∧
    (([⟨"X".data, 7, none⟩, ⟨"d".data, 7, none⟩] : List Run).map Run.text).flatten
      = "Xd".data :=
  ⟨rfl, rfl, rfl⟩

/-- C1 counterexample: with search text `"aaa"` on flattened text
`"aaaaZ"`, the two match spans `(0,3)` and `(1,4)` overlap; the `"Z"` run
lies entirely outside both spans, yet the replace-all pass (stale run map
across right-to-left match processing) removes it: the final run sequence
is a single `"b"` run, so the outside run is not preserved. -/
theorem overlapping_matches_destroy_outside_run :
    collectMatches (flatNorm frameCexRuns) (normalize_text_for_search "aaa".data) =
      [(0, 3), (1, 4)] ∧
    outsideAllMatches frameCexRuns 4 [(0, 3), (1, 4)] = true ∧
    process_paragraph_standard frameCexRuns (flatNorm frameCexRuns)
        (run_map frameCexRuns) (normalize_text_for_search "aaa".data) "b".data =
      .ok ([⟨"b".data, 0, none⟩], 2) ∧
    outsideFilter frameCexRuns [(0, 3), (1, 4)] [⟨"b".data, 0, none⟩] = [] ∧
    outsideFilter frameCexRuns [(0, 3), (1, 4)] frameCexRuns = [⟨"Z".data, 9, some 4⟩] :=
  ⟨rfl, rfl, rfl, rfl, rfl⟩

/-- C9 counterexample: on `crashDoc` the XML fallback processes the match
`(1,4)` first, removing the wrapped run element; processing the
overlapping match `(0,3)` then operates on the now-detached element and
raises, so `find_and_replace_text_preserve_formatting` propagates an
exception instead of returning a count — and the second paragraph, which
does contain the search text, is never processed. -/
theorem xml_fallback_exception_aborts_pass :
    find_and_replace_text_preserve_formatting false crashDoc "aaa".data "b".data =
      .error "detached element: addprevious on removed run" ∧
    containsSub (flatNorm ((⟨none, false, [⟨"xaaax".data, 1, some 0⟩]⟩ : Paragraph).directRuns))
        (normalize_text_for_search "aaa".data) = true :=
  ⟨rfl, rfl⟩

theorem process_paragraph_toc (dbg : Bool) (old_text new_text : Txt)
    (p : Paragraph) (h : p.isTOC = true) :
    process_paragraph dbg old_text new_text p = .ok (p, 0, []) := by
  simp [process_paragraph, h]

theorem fnrSimplePara_toc (old_text new_text : Txt) (p : Paragraph)
    (h : p.isTOC = true) : fnrSimplePara old_text new_text p = (p, 0) := by
  simp [fnrSimplePara, h]

theorem foldProc_get {a b : Type} (f : a → Except String (b × Nat × List String)) :
    ∀ (xs : List a) (ys : List b) (m : Nat) (lg : List String) (i : Nat) (x : a),
      foldProc f xs = .ok (ys, m, lg) → xs.get? i = some x →
      ∃ y k lg1, f x = .ok (y, k, lg1) ∧ ys.get? i = some y := by
  intro xs
  induction xs with
  | nil =>
      intro ys m lg i x hfold hget
      simp at hget
  | cons q rest ih =>
      intro ys m lg i x hfold hget
      simp only [foldProc] at hfold
      cases hq : f q with
      | error e => rw [hq] at hfold; simp at hfold
      | ok v =>
        obtain ⟨y, n, lg0⟩ := v
        rw [hq] at hfold
        cases hrest : foldProc f rest with
        | error e => rw [hrest] at hfold; simp at hfold
        | ok w =>
          obtain ⟨ys1, m1, lg2⟩ := w
          rw [hrest] at hfold
          simp only [Except.ok.injEq, Prod.mk.injEq] at hfold
          obtain ⟨hys, _, _⟩ := hfold
          cases i with
          | zero =>
              simp only [List.get?] at hget
              injection hget with hget
              subst hget
              exact ⟨y, n, lg0, hq, by rw [← hys]; rfl⟩
          | succ i =>
              simp only [List.get?] at hget
              obtain ⟨y1, k1, lg3, hf, hgy⟩ := ih ys1 m1 lg2 i x hrest hget
              exact ⟨y1, k1, lg3, hf, by rw [← hys]; simpa using hgy⟩

theorem foldTot_fst {a b : Type} (f : a → b × Nat) :
    ∀ xs : List a, (foldTot f xs).1 = xs.map (fun x => (f x).1) := by
  intro xs
  induction xs with
  | nil => rfl
  | cons q rest ih => simp [foldTot, ih]

/-- C6: a paragraph whose style name starts with "TOC" is never modified
by either replace operation: whenever
`find_and_replace_text_preserve_formatting` completes, every TOC
paragraph of the body and of every table cell is returned unchanged at
its position, and likewise (unconditionally) for
`find_and_replace_text`. -/
theorem toc_paragraphs_never_modified
    (dbg : Bool) (doc : Document) (old_text new_text : Txt)
    (doc1 : Document) (cnt : Nat) (lg : List String)
    (hok : find_and_replace_text_preserve_formatting dbg doc old_text new_text =
      .ok (doc1, cnt, lg)) :
    (∀ i p, doc.paragraphs.get? i = some p → p.isTOC = true →
       doc1.paragraphs.get? i = some p) ∧
    (∀ t r c i p, doc.tablePara t r c i = some p → p.isTOC = true →
       doc1.tablePara t r c i = some p) ∧
    (∀ i p, doc.paragraphs.get? i = some p → p.isTOC = true →
       (find_and_replace_text doc old_text new_text).1.paragraphs.get? i = some p) ∧
    (∀ t r c i p, doc.tablePara t r c i = some p → p.isTOC = true →
       (find_and_replace_text doc old_text new_text).1.tablePara t r c i = some p) := by
  simp only [find_and_replace_text_preserve_formatting] at hok
  cases hbody : processParas dbg old_text new_text doc.paragraphs with
  | error e => rw [hbody] at hok; simp at hok
  | ok vb =>
    obtain ⟨body1, n1, lgB⟩ := vb
    rw [hbody] at hok
    cases htabs : processTables dbg old_text new_text doc.tables with
    | error e => rw [htabs] at hok; simp at hok
    | ok vt =>
      obtain ⟨tables1, n2, lgT⟩ := vt
      rw [htabs] at hok
      simp only [Except.ok.injEq, Prod.mk.injEq] at hok
      obtain ⟨hdoc1, -, -⟩ := hok
      have hb1 : doc1.paragraphs = body1 := by rw [← hdoc1]
      have ht1 : doc1.tables = tables1 := by rw [← hdoc1]
      simp only [processParas] at hbody
      simp only [processTables] at htabs
      refine ⟨?_, ?_, ?_, ?_⟩
      · intro i p hget htoc
        obtain ⟨y, k, lg1, hf, hy⟩ :=
          foldProc_get _ doc.paragraphs body1 n1 lgB i p hbody hget
        rw [process_paragraph_toc dbg old_text new_text p htoc] at hf
        simp only [Except.ok.injEq, Prod.mk.injEq] at hf
        rw [hb1, hf.1]
        exact hy
      · intro t r c i p hget htoc
        simp only [Document.tablePara] at hget
        cases htb : doc.tables.get? t with
        | none => rw [htb] at hget; simp at hget
        | some tb =>
        rw [htb] at hget
        simp only [Option.some_bind] at hget
        cases hrw : tb.get? r with
        | none => rw [hrw] at hget; simp at hget
        | some rw1 =>
        rw [hrw] at hget
        simp only [Option.some_bind] at hget
        cases hcl : rw1.get? c with
        | none => rw [hcl] at hget; simp at hget
        | some cl =>
        rw [hcl] at hget
        simp only [Option.some_bind] at hget
        obtain ⟨tb1, kt, lgt, hft, hgt⟩ :=
          foldProc_get _ doc.tables tables1 n2 lgT t tb htabs htb
        simp only [processRows] at hft
        cases hft2 : foldProc (processCells dbg old_text new_text) tb with
        | error e => rw [hft2] at hft; simp at hft
        | ok vr =>
        obtain ⟨tb1x, kr, lgr⟩ := vr
        rw [hft2] at hft
        simp only [Except.ok.injEq, Prod.mk.injEq] at hft
        obtain ⟨htb1, -, -⟩ := hft
        obtain ⟨rw2, kc, lgc, hfc, hgr⟩ :=
          foldProc_get _ tb tb1x kr lgr r rw1 hft2 hrw
        simp only [processCells] at hfc
        cases hfc2 : foldProc (processParas dbg old_text new_text) rw1 with
        | error e => rw [hfc2] at hfc; simp at hfc
        | ok vc =>
        obtain ⟨rw2x, kp, lgp⟩ := vc
        rw [hfc2] at hfc
        simp only [Except.ok.injEq, Prod.mk.injEq] at hfc
        obtain ⟨hrw2, -, -⟩ := hfc
        obtain ⟨cl1, kq, lgq, hfq, hgc⟩ :=
          foldProc_get _ rw1 rw2x kp lgp c cl hfc2 hcl
        simp only [processParas] at hfq
        cases hfq2 : foldProc (process_paragraph dbg old_text new_text) cl with
        | error e => rw [hfq2] at hfq; simp at hfq
        | ok vq =>
        obtain ⟨cl1x, ku, lgu⟩ := vq
        rw [hfq2] at hfq
        simp only [Except.ok.injEq, Prod.mk.injEq] at hfq
        obtain ⟨hcl1, -, -⟩ := hfq
        obtain ⟨y, kv, lgv, hfy, hgy⟩ :=
          foldProc_get _ cl cl1x ku lgu i p hfq2 hget
        rw [process_paragraph_toc dbg old_text new_text p htoc] at hfy
        simp only [Except.ok.injEq, Prod.mk.injEq] at hfy
        have hyp : y = p := hfy.1.symm
        simp only [Document.tablePara, ht1, hgt, Option.some_bind]
        rw [← htb1, hgr]
        simp only [Option.some_bind]
        rw [← hrw2, hgc]
        simp only [Option.some_bind]
        rw [← hcl1, hgy, hyp]
      · intro i p hget htoc
        simp only [find_and_replace_text, fnrSimpleParas, foldTot_fst]
        rw [List.get?_map, hget]
        simp [fnrSimplePara_toc old_text new_text p htoc]
      · intro t r c i p hget htoc
        simp only [Document.tablePara] at hget
        cases htb : doc.tables.get? t with
        | none => rw [htb] at hget; simp at hget
        | some tb =>
        rw [htb] at hget
        simp only [Option.some_bind] at hget
        cases hrw : tb.get? r with
        | none => rw [hrw] at hget; simp at hget
        | some rw1 =>
        rw [hrw] at hget
        simp only [Option.some_bind] at hget
        cases hcl : rw1.get? c with
        | none => rw [hcl] at hget; simp at hget
        | some cl =>
        rw [hcl] at hget
        simp only [Option.some_bind] at hget
        simp only [Document.tablePara, find_and_replace_text, fnrSimpleTables, foldTot_fst]
        rw [List.get?_map, htb]
        simp only [Option.map_some', Option.some_bind, fnrSimpleRows, foldTot_fst]
        rw [List.get?_map, hrw]
        simp only [Option.map_some', Option.some_bind, fnrSimpleCells, foldTot_fst]
        rw [List.get?_map, hcl]
        simp only [Option.map_some', Option.some_bind, fnrSimpleParas, foldTot_fst]
        rw [List.get?_map, hget]
        simp [fnrSimplePara_toc old_text new_text p htoc]

/-- Witness for C6: a TOC paragraph containing the search text survives a
replace-all unchanged in both engines. -/
theorem toc_paragraphs_never_modified_witness :
    wTocDoc.paragraphs.get? 0 = some wTocPara ∧
    wTocDoc.tablePara 0 0 0 0 = some wTocPara ∧
    (find_and_replace_text wTocDoc "ab".data "X".data).1.paragraphs.get? 0 = some wTocPara := by
  have h := toc_paragraphs_never_modified false wTocDoc "ab".data "X".data wTocDoc 0 [] rfl
  exact ⟨rfl, rfl, h.2.2.1 0 wTocPara rfl rfl⟩

theorem dropLog_rel {b : Type} (x y : Except String (b × Nat × List String))
    (h : dropLog x = dropLog y) :
    (∃ e, x = .error e ∧ y = .error e) ∨
    (∃ v n lg1 lg2, x = .ok (v, n, lg1) ∧ y = .ok (v, n, lg2)) := by
  cases x with
  | error e =>
      cases y with
      | error e2 =>
          simp only [dropLog, Except.map] at h
          injection h with h
          exact Or.inl ⟨e, rfl, by rw [h]⟩
      | ok w => simp [dropLog, Except.map] at h
  | ok v =>
      cases y with
      | error e2 => simp [dropLog, Except.map] at h
      | ok w =>
          obtain ⟨v1, n1, lg1⟩ := v
          obtain ⟨w1, m1, lg2⟩ := w
          simp only [dropLog, Except.map, Except.ok.injEq, Prod.mk.injEq] at h
          exact Or.inr ⟨v1, n1, lg1, lg2, rfl, by rw [h.1, h.2]⟩

theorem process_paragraph_dbg (old_text new_text : Txt) (p : Paragraph) :
    dropLog (process_paragraph true old_text new_text p) =
    dropLog (process_paragraph false old_text new_text p) := by
  unfold process_paragraph
  by_cases h1 : p.isTOC
  · simp [h1]
  · simp only [h1, Bool.false_eq_true, if_false]
    by_cases h2 : containsSub (flatNorm p.directRuns) (normalize_text_for_search old_text)
    · simp only [h2, if_true]
      cases hstd : process_paragraph_standard p.directRuns (flatNorm p.directRuns)
          (run_map p.directRuns) (normalize_text_for_search old_text) new_text with
      | error e => simp
      | ok v => obtain ⟨runs1, n⟩ := v; simp [dropLog, Except.map]
    · simp only [h2, if_false]
      by_cases h3 : containsSub (build_xml_run_map p.runs).1 (normalize_text_for_search old_text)
      · simp only [h3, if_true]
        cases hxml : process_paragraph_xml p.runs (build_xml_run_map p.runs).1
            (build_xml_run_map p.runs).2 (normalize_text_for_search old_text) new_text with
        | error e => simp
        | ok v => obtain ⟨runs1, n⟩ := v; simp [dropLog, Except.map]
      · simp [h3, dropLog, Except.map]

theorem foldProc_dropLog {a b : Type}
    (f g : a → Except String (b × Nat × List String))
    (h : ∀ x, dropLog (f x) = dropLog (g x)) :
    ∀ xs : List a, dropLog (foldProc f xs) = dropLog (foldProc g xs) := by
  intro xs
  induction xs with
  | nil => rfl
  | cons q rest ih =>
      rcases dropLog_rel (f q) (g q) (h q) with ⟨e, hfq, hgq⟩ | ⟨v, n, lg1, lg2, hfq, hgq⟩
      · simp [foldProc, hfq, hgq, dropLog, Except.map]
      · rcases dropLog_rel (foldProc f rest) (foldProc g rest) ih with
          ⟨e, hfr, hgr⟩ | ⟨w, m, lg3, lg4, hfr, hgr⟩
        · simp [foldProc, hfq, hgq, hfr, hgr, dropLog, Except.map]
        · simp [foldProc, hfq, hgq, hfr, hgr, dropLog, Except.map]

/-- C10: the `MCP_WORD_DEBUG_FIND_REPLACE` environment toggle does not
influence the observable outcome of
`find_and_replace_text_preserve_formatting`: for every document and
search/replacement pair, the resulting document state and the returned
count (or the propagated exception) are identical whether or not the
debug flag is set; only the logging output differs. -/
theorem debug_flag_does_not_affect_result (doc : Document) (old_text new_text : Txt) :
    dropLog (find_and_replace_text_preserve_formatting true doc old_text new_text) =
    dropLog (find_and_replace_text_preserve_formatting false doc old_text new_text) := by
  have hpara : ∀ p, dropLog (process_paragraph true old_text new_text p) =
      dropLog (process_paragraph false old_text new_text p) :=
    process_paragraph_dbg old_text new_text
  have hparas : ∀ ps, dropLog (processParas true old_text new_text ps) =
      dropLog (processParas false old_text new_text ps) := by
    intro ps
    simp only [processParas]
    exact foldProc_dropLog _ _ hpara ps
  have hcells : ∀ cs, dropLog (processCells true old_text new_text cs) =
      dropLog (processCells false old_text new_text cs) := by
    intro cs
    simp only [processCells]
    exact foldProc_dropLog _ _ hparas cs
  have hrows : ∀ rs, dropLog (processRows true old_text new_text rs) =
      dropLog (processRows false old_text new_text rs) := by
    intro rs
    simp only [processRows]
    exact foldProc_dropLog _ _ hcells rs
  have htabs : ∀ ts, dropLog (processTables true old_text new_text ts) =
      dropLog (processTables false old_text new_text ts) := by
    intro ts
    simp only [processTables]
    exact foldProc_dropLog _ _ hrows ts
  unfold find_and_replace_text_preserve_formatting
  rcases dropLog_rel _ _ (hparas doc.paragraphs) with
    ⟨e, hfb, hgb⟩ | ⟨vb, nb, lgb1, lgb2, hfb, hgb⟩
  · simp [hfb, hgb]
  · rcases dropLog_rel _ _ (htabs doc.tables) with
      ⟨e, hft, hgt⟩ | ⟨vt, nt, lgt1, lgt2, hft, hgt⟩
    · simp [hfb, hgb, hft, hgt]
    · simp [hfb, hgb, hft, hgt, dropLog, Except.map]

theorem filterMap_range_first {X : Type} :
    ∀ (n : Nat) (k : Nat → Option X) (x : X) (xs : List X),
      (List.range n).filterMap k = x :: xs →
      ∃ F, F < n ∧ k F = some x ∧ ∀ j, j < F → k j = none := by
  intro n
  induction n with
  | zero =>
      intro k x xs h
      simp at h
  | succ n ih =>
      intro k x xs h
      rw [List.range_succ_eq_map n, List.filterMap_cons] at h
      cases hk0 : k 0 with
      | some y =>
          rw [hk0] at h
          injection h with h1 h2
          refine ⟨0, Nat.succ_pos n, ?_, fun j hj => absurd hj (Nat.not_lt_zero j)⟩
          rw [hk0, h1]
      | none =>
          rw [hk0, List.filterMap_map] at h
          obtain ⟨F, hFn, hkF, hbelow⟩ := ih (fun j => k (j+1)) x xs h
          refine ⟨F+1, Nat.succ_lt_succ hFn, hkF, ?_⟩
          intro j hj
          cases j with
          | zero => exact hk0
          | succ j => exact hbelow j (Nat.lt_of_succ_lt_succ hj)

theorem filterMap_range_last {X : Type} :
    ∀ (n : Nat) (k : Nat → Option X) (l : List X) (y : X),
      (List.range n).filterMap k = l → l.getLast? = some y →
      ∃ L, L < n ∧ k L = some y ∧ ∀ j, L < j → j < n → k j = none := by
  intro n
  induction n with
  | zero =>
      intro k l y h hl
      subst h
      simp at hl
  | succ n ih =>
      intro k l y h hl
      rw [List.range_succ, List.filterMap_append] at h
      cases hkn : k n with
      | some z =>
          rw [List.filterMap_cons, hkn, List.filterMap_nil] at h
          subst h
          rw [List.getLast?_concat] at hl
          injection hl with hl
          refine ⟨n, Nat.lt_succ_self n, ?_, fun j h1 h2 => absurd h1 (by omega)⟩
          rw [hkn, hl]
      | none =>
          rw [List.filterMap_cons, hkn, List.filterMap_nil, List.append_nil] at h
          obtain ⟨L, hLn, hkL, habove⟩ := ih k l y h hl
          refine ⟨L, Nat.lt_succ_of_lt hLn, hkL, ?_⟩
          intro j h1 h2
          rcases Nat.lt_succ_iff_lt_or_eq.mp h2 with h3 | h3
          · exact habove j h1 h3
          · subst h3
            exact hkn

theorem filterMap_range_mem {X : Type} (n : Nat) (k : Nat → Option X) (y : X)
    (h : y ∈ (List.range n).filterMap k) : ∃ i, i < n ∧ k i = some y := by
  obtain ⟨i, hi, hk⟩ := List.mem_filterMap.mp h
  exact ⟨i, List.mem_range.mp hi, hk⟩

theorem spanStart_succ_of_get (R : List Run) (i : Nat) (r : Run)
    (h : R.get? i = some r) : spanStart R (i+1) = spanStart R i + normLen r := by
  unfold spanStart
  rw [List.get?_eq_getElem?] at h
  rw [List.take_succ, h]
  simp

theorem spanStart_succ_of_none (R : List Run) (i : Nat)
    (h : R.get? i = none) : spanStart R (i+1) = spanStart R i := by
  unfold spanStart
  rw [List.get?_eq_getElem?] at h
  rw [List.take_succ, h]
  simp

theorem spanStart_le_succ (R : List Run) (j : Nat) :
    spanStart R j ≤ spanStart R (j+1) := by
  cases h : R.get? j with
  | some r => rw [spanStart_succ_of_get R j r h]; omega
  | none => rw [spanStart_succ_of_none R j h]

theorem spanStart_mono (R : List Run) {i j : Nat} (h : i ≤ j) :
    spanStart R i ≤ spanStart R j := by
  induction j with
  | zero =>
      have : i = 0 := Nat.le_zero.mp h
      subst this
      exact le_refl _
  | succ j ih =>
      rcases Nat.lt_or_ge i (j+1) with h1 | h1
      · exact le_trans (ih (Nat.lt_succ_iff.mp h1)) (spanStart_le_succ R j)
      · have h2 : i = j+1 := le_antisymm h h1
        subst h2
        exact le_refl _

theorem flatNorm_length (R : List Run) :
    (flatNorm R).length = spanStart R R.length := by
  unfold flatNorm spanStart
  rw [List.take_length]
  simp only [List.length_flatten, List.map_map]
  rfl

theorem pyFind_props (hay needle : Txt) (start p : Nat)
    (h : pyFind hay needle start = some p) :
    start ≤ p ∧ p + needle.length ≤ hay.length ∧
      (hay.drop p).take needle.length = needle := by
  unfold pyFind at h
  have h1 := List.find?_some h
  simp only [Bool.and_eq_true, decide_eq_true_eq] at h1
  exact ⟨h1.1.1, h1.1.2, h1.2⟩

theorem collectMatchesAux_mem (hay needle : Txt) :
    ∀ (fuel start : Nat) (m : Nat × Nat),
      m ∈ collectMatchesAux hay needle start fuel →
      start ≤ m.1 ∧ m.2 = m.1 + needle.length ∧ m.1 + needle.length ≤ hay.length := by
  intro fuel
  induction fuel with
  | zero =>
      intro start m h
      simp [collectMatchesAux] at h
  | succ fuel ih =>
      intro start m h
      rw [collectMatchesAux] at h
      cases hf : pyFind hay needle start with
      | none => rw [hf] at h; simp at h
      | some p =>
          rw [hf] at h
          have hp := pyFind_props hay needle start p hf
          rcases List.mem_cons.mp h with h1 | h1
          · subst h1
            exact ⟨hp.1, rfl, hp.2.1⟩
          · have h2 := ih (p+1) m h1
            exact ⟨by omega, h2.2.1, h2.2.2⟩

theorem collectMatchesAux_chain (hay needle : Txt) :
    ∀ (fuel start : Nat),
      List.Chain' (fun m1 m2 => m1.1 < m2.1)
        (collectMatchesAux hay needle start fuel) := by
  intro fuel
  induction fuel with
  | zero =>
      intro start
      simp [collectMatchesAux]
  | succ fuel ih =>
      intro start
      rw [collectMatchesAux]
      cases hf : pyFind hay needle start with
      | none => simp
      | some p =>
          rw [List.chain'_cons']
          refine ⟨?_, ih (p+1)⟩
          intro y hy
          have hmem : y ∈ collectMatchesAux hay needle (p+1) fuel :=
            List.mem_of_mem_head? hy
          have h2 := collectMatchesAux_mem hay needle fuel (p+1) y hmem
          simp only
          omega

theorem chain'_and {X : Type} (p q : X → X → Prop) :
    ∀ l : List X, List.Chain' p l → List.Chain' q l →
      List.Chain' (fun a b => p a b ∧ q a b) l := by
  intro l
  induction l with
  | nil =>
      intro _ _
      simp
  | cons a l ih =>
      intro hp hq
      cases l with
      | nil => simp
      | cons b l2 =>
          rw [List.chain'_cons] at hp hq ⊢
          exact ⟨⟨hp.1, hq.1⟩, ih hp.2 hq.2⟩

theorem split_run_at_mid (runs : List Run) (j k : Nat) (r : Run)
    (hj : runs.get? j = some r) (h0 : 0 < k) (hk : k < r.text.length) :
    (split_run_at runs j k).2 =
      runs.take j ++
        [{ r with text := r.text.take k }, clone_run_with_text r (r.text.drop k)] ++
        runs.drop (j+1) := by
  unfold split_run_at
  rw [hj]
  have h1 : ¬ (k = 0) := by omega
  have h2 : ¬ (r.text.length ≤ k) := by omega
  simp [h1, h2]

theorem split_run_at_noop_ge (runs : List Run) (j k : Nat) (r : Run)
    (hj : runs.get? j = some r) (hk : r.text.length ≤ k) :
    (split_run_at runs j k).2 = runs := by
  unfold split_run_at
  rw [hj]
  by_cases h1 : k = 0 <;> simp [h1, hk]

theorem affectedOf_run_map (R : List Run) (ms me : Nat) :
    affectedOf (run_map R) ms me =
      (List.range R.length).filterMap (fun i =>
        if spanStart R i < spanStart R (i+1) ∧ spanStart R i < me ∧ ms < spanStart R (i+1) then
          some (i, ms - spanStart R i,
            min (spanStart R (i+1) - spanStart R i) (me - spanStart R i), spanStart R i)
        else none) := by
  unfold affectedOf run_map
  rw [List.filterMap_filterMap]
  congr 1
  funext i
  by_cases h1 : spanStart R i < spanStart R (i+1)
  · by_cases h2 : spanStart R i < me ∧ ms < spanStart R (i+1) <;>
      simp [h1, h2, Option.bind]
  · simp [h1]

theorem FrameInv.len_ge {R : List Run} {M : List (Nat × Nat)} {C : List Run}
    {bnd mPrev : Nat} (inv : FrameInv R M C bnd mPrev) : bnd ≤ C.length := by
  have h := congrArg List.length inv.take_eq
  simp only [List.length_take] at h
  have h2 := inv.bnd_le
  omega

theorem FrameInv.get_lt {R : List Run} {M : List (Nat × Nat)} {C : List Run}
    {bnd mPrev : Nat} (inv : FrameInv R M C bnd mPrev) {i : Nat} (h : i < bnd) :
    C.get? i = R.get? i := by
  have h1 : (C.take bnd).get? i = C.get? i := List.get?_take h
  have h2 : (R.take bnd).get? i = R.get? i := List.get?_take h
  rw [← h1, inv.take_eq, h2]

theorem frameInv_update (R : List Run) (M : List (Nat × Nat)) (C : List Run)
    (bnd mPrev : Nat) (inv : FrameInv R M C bnd mPrev)
    (ms F L : Nat) (mid : List Run) (C1 : List Run)
    (hFL : F ≤ L) (hLb : L ≤ bnd) (hLC : L < C.length) (hFn : F < R.length)
    (hmsF : ms < spanStart R (F+1))
    (hC1 : C1 = C.take F ++ mid ++ C.drop (L+1))
    (hqX : ∀ r ∈ (C.drop F).take (L+1-F), outPred R M r = false)
    (hqmid : ∀ r ∈ mid, outPred R M r = false)
    (hbnd : spanStart R F < ms →
      ∃ w r0, R.get? F = some r0 ∧ ms - spanStart R F ≤ w ∧
        C1.get? F = some { r0 with text := r0.text.take w }) :
    FrameInv R M C1 F ms := by
  have hFC : F ≤ C.length := by omega
  have htakeF : C.take F = R.take F := by
    have h1 : C.take F = (C.take bnd).take F := by
      rw [List.take_take]
      congr 1
      omega
    have h2 : R.take F = (R.take bnd).take F := by
      rw [List.take_take]
      congr 1
      omega
    rw [h1, inv.take_eq, ← h2]
  constructor
  · rw [hC1, List.append_assoc]
    rw [List.take_append_of_le_length (by simp [List.length_take]; omega)]
    rw [List.take_take, Nat.min_self, htakeF]
  · have hdecomp : C = (C.take F ++ (C.drop F).take (L+1-F)) ++ C.drop (L+1) := by
      rw [← List.take_add, show F + (L+1-F) = L+1 by omega]
      exact (List.take_append_drop (L+1) C).symm
    unfold outsideFilter
    rw [hC1]
    rw [List.filter_append, List.filter_append]
    have hmid0 : mid.filter (outPred R M) = [] := by
      rw [List.filter_eq_nil]
      intro r hr
      simp [hqmid r hr]
    have hX0 : ((C.drop F).take (L+1-F)).filter (outPred R M) = [] := by
      rw [List.filter_eq_nil]
      intro r hr
      simp [hqX r hr]
    rw [hmid0]
    have hC : outsideFilter R M C = outsideFilter R M R := inv.filter_eq
    unfold outsideFilter at hC
    conv at hC => lhs; rw [hdecomp]
    rw [List.filter_append, List.filter_append, hX0] at hC
    simpa using hC
  · exact Nat.le_of_lt hFn
  · intro _
    exact ⟨hmsF, hbnd⟩

theorem buildReplacementAux_id_none :
    ∀ (rtr : List Run) (t : Txt) (r : Run),
      r ∈ (buildReplacementAux rtr t).1 → r.id = none := by
  intro rtr
  induction rtr with
  | nil =>
      intro t r h
      simp [buildReplacementAux] at h
  | cons o rest ih =>
      intro t r h
      rw [buildReplacementAux] at h
      by_cases h1 : t = []
      · simp [h1] at h
      · simp only [h1, if_false] at h
        by_cases h2 : rest = []
        · simp only [h2, if_true] at h
          simp at h
          subst h
          rfl
        · simp only [h2, if_false] at h
          rcases List.mem_append.mp h with h3 | h3
          · by_cases h4 : t.take (if 0 < o.text.length then min o.text.length t.length else 1) = []
            · simp [h4] at h3
            · simp only [h4, if_false] at h3
              simp at h3
              subst h3
              rfl
          · exact ih _ r h3

theorem buildReplacement_id_none (rtr : List Run) (t : Txt) (r : Run)
    (h : r ∈ buildReplacement rtr t) : r.id = none := by
  unfold buildReplacement at h
  rcases List.mem_append.mp h with h1 | h1
  · exact buildReplacementAux_id_none rtr t r h1
  · by_cases h2 : (buildReplacementAux rtr t).2 ≠ [] ∧ rtr ≠ []
    · rw [if_pos h2] at h1
      simp at h1
      subst h1
      rfl
    · rw [if_neg h2] at h1
      simp at h1

theorem zone_get {α : Type} (P mid Sfx : List α) (j : Nat)
    (h1 : P.length ≤ j) (h2 : j < P.length + mid.length) :
    (P ++ mid ++ Sfx).get? j = mid.get? (j - P.length) := by
  rw [List.append_assoc]
  rw [List.get?_append_right h1]
  rw [List.get?_append (by omega)]

theorem zone_take {α : Type} (P mid Sfx : List α) (j : Nat)
    (h1 : P.length ≤ j) (h2 : j ≤ P.length + mid.length) :
    (P ++ mid ++ Sfx).take j = P ++ mid.take (j - P.length) := by
  rw [List.append_assoc]
  rw [List.take_append_eq_append_take]
  rw [List.take_of_length_le h1]
  rw [List.take_append_eq_append_take]
  rw [show j - P.length - mid.length = 0 by omega]
  simp

theorem zone_drop {α : Type} (P mid Sfx : List α) (j : Nat)
    (h1 : P.length ≤ j) :
    (P ++ mid ++ Sfx).drop j = (mid ++ Sfx).drop (j - P.length) := by
  rw [List.append_assoc]
  rw [List.drop_append_eq_append_drop]
  rw [List.drop_of_length_le h1]
  simp

theorem outPred_retext (R : List Run) (M : List (Nat × Nat)) (r : Run) (t : Txt) :
    outPred R M { r with text := t } = outPred R M r := rfl

theorem outPred_clone (R : List Run) (M : List (Nat × Nat)) (src : Run) (t : Txt) :
    outPred R M (clone_run_with_text src t) = false := rfl

theorem outPred_eq_of_id (orig : List Run) (mspans : List (Nat × Nat)) (r : Run)
    (i : Nat) (hid : r.id = some i) :
    outPred orig mspans r = outsideAllMatches orig i mspans := by
  unfold outPred
  rw [hid]

theorem outPred_false_of_id_none (orig : List Run) (mspans : List (Nat × Nat)) (r : Run)
    (hid : r.id = none) : outPred orig mspans r = false := by
  unfold outPred
  rw [hid]

theorem zone_get_head {α : Type} (P : List α) (x : α) (rest Sfx : List α)
    (n : Nat) (hP : P.length = n) :
    (P ++ (x :: rest) ++ Sfx).get? n = some x := by
  rw [zone_get P (x :: rest) Sfx n (by omega) (by simp; omega), hP, Nat.sub_self]
  rfl

theorem outsideAllMatches_false_of_overlap (R : List Run) (M : List (Nat × Nat))
    (ms me i : Nat) (hmem : (ms, me) ∈ M)
    (h1 : ms < spanStart R (i+1)) (h2 : spanStart R i < me) :
    outsideAllMatches R i M = false := by
  unfold outsideAllMatches
  by_contra h
  have h3 : (M.all fun m => outsideMatch R i m) = true := by
    cases hb : M.all fun m => outsideMatch R i m
    · exact absurd hb h
    · rfl
  have h4 := List.all_eq_true.mp h3 (ms, me) hmem
  unfold outsideMatch at h4
  simp only [Bool.or_eq_true, decide_eq_true_eq] at h4
  omega

theorem frame_step (R : List Run) (M : List (Nat × Nat)) (new_text : Txt)
    (hids : ∀ i r, R.get? i = some r → r.id = some i)
    (C : List Run) (bnd mPrev : Nat) (inv : FrameInv R M C bnd mPrev)
    (ms me : Nat) (hmem : (ms, me) ∈ M)
    (hlt : ms < mPrev) (hle : me ≤ mPrev) :
    ∃ C1 flag bnd1, processMatchStd (run_map R) new_text C (ms, me) = .ok (C1, flag) ∧
      FrameInv R M C1 bnd1 ms := by
  unfold processMatchStd
  dsimp only
  rw [affectedOf_run_map]
  set k := fun i => if spanStart R i < spanStart R (i+1) ∧ spanStart R i < me ∧
      ms < spanStart R (i+1) then
      some (i, ms - spanStart R i,
        min (spanStart R (i+1) - spanStart R i) (me - spanStart R i), spanStart R i)
    else none with hk
  cases haff : (List.range R.length).filterMap k with
  | nil =>
      refine ⟨C, false, bnd, rfl, ?_⟩
      refine ⟨inv.take_eq, inv.filter_eq, inv.bnd_le, ?_⟩
      intro hb
      obtain ⟨hA, hB⟩ := inv.boundary hb
      refine ⟨by omega, fun hS => ?_⟩
      obtain ⟨w, r0, h1, h2, h3⟩ := hB (by omega)
      exact ⟨w, r0, h1, by omega, h3⟩
  | cons a0 arest =>
      obtain ⟨F, hFn, hkF, hFfirst⟩ := filterMap_range_first R.length k a0 arest haff
      have hglast : (a0 :: arest).getLast? = some ((a0 :: arest).getLast (by simp)) :=
        List.getLast?_eq_getLast _ _
      obtain ⟨L, hLn, hkL, hLlast⟩ :=
        filterMap_range_last R.length k (a0 :: arest) _ haff hglast
      rw [hk] at hkF hkL
      dsimp only at hkF hkL
      by_cases hcF : spanStart R F < spanStart R (F+1) ∧ spanStart R F < me ∧
          ms < spanStart R (F+1)
      swap
      · rw [if_neg hcF] at hkF
        exact absurd hkF (by simp)
      rw [if_pos hcF] at hkF
      by_cases hcL : spanStart R L < spanStart R (L+1) ∧ spanStart R L < me ∧
          ms < spanStart R (L+1)
      swap
      · rw [if_neg hcL] at hkL
        exact absurd hkL (by simp)
      rw [if_pos hcL] at hkL
      injection hkF with hkF
      injection hkL with hkL
      have hgld : (a0 :: arest).getLastD a0 = (a0 :: arest).getLast (by simp) := by
        rw [List.getLastD_eq_getLast?, hglast]
        rfl
      dsimp only
      rw [hgld, ← hkL, ← hkF]
      dsimp only
      -- basic index facts
      have hFL : F ≤ L := by
        by_contra h
        push_neg at h
        have h1 : (if spanStart R L < spanStart R (L+1) ∧ spanStart R L < me ∧
            ms < spanStart R (L+1) then
            some (L, ms - spanStart R L,
              min (spanStart R (L+1) - spanStart R L) (me - spanStart R L), spanStart R L)
          else none) = none := hFfirst L h
        rw [if_pos hcL] at h1
        exact absurd h1 (by simp)
      have hLbnd : L ≤ bnd := by
        by_contra h
        push_neg at h
        have hbnd_lt : bnd < R.length := lt_trans h hLn
        have h1 := (inv.boundary hbnd_lt).1
        have h2 : spanStart R (bnd+1) ≤ spanStart R L := spanStart_mono R (by omega)
        omega
      have hLC : L < C.length := by
        rcases Nat.lt_or_ge L bnd with h | h
        · have := inv.len_ge
          omega
        · have hLb : L = bnd := le_antisymm hLbnd h
          have hbnd_lt : bnd < R.length := hLb ▸ hLn
          have hSb : spanStart R bnd < mPrev := by
            rw [← hLb]
            omega
          obtain ⟨w, r0, hr0, hwb, hCb⟩ := (inv.boundary hbnd_lt).2 hSb
          have h2 := (List.get?_eq_some.mp hCb).1
          omega
      have hFC : F < C.length := by omega
      have hlenPF : (C.take F).length = F := by
        rw [List.length_take]
        omega
      -- outside-ness is false on the affected index range
      have hout : ∀ i, F ≤ i → i ≤ L → outsideAllMatches R i M = false := by
        intro i h1 h2
        refine outsideAllMatches_false_of_overlap R M ms me i hmem ?_ ?_
        · exact lt_of_lt_of_le hcF.2.2 (spanStart_mono R (by omega))
        · exact lt_of_le_of_lt (spanStart_mono R h2) hcL.2.1
      -- the boundary run (when it is touched) and the first run of the match
      have hremnant : ∀ i, F ≤ i → i ≤ L →
          ∃ w1 r1, R.get? i = some r1 ∧ C.get? i = some { r1 with text := r1.text.take w1 } ∧
            min (normLen r1) (mPrev - spanStart R i) ≤ w1 := by
        intro i h1 h2
        rcases Nat.lt_or_ge i bnd with h | h
        · cases hR : R.get? i with
          | none =>
              have := List.get?_eq_none.mp hR
              omega
          | some r1 =>
              refine ⟨r1.text.length, r1, rfl, ?_, ?_⟩
              · rw [inv.get_lt h, hR]
                congr 1
                cases r1
                simp [List.take_length]
              · have := normalize_length_le r1.text
                unfold normLen
                omega
        · have hieq : i = bnd := by omega
          rw [hieq]
          have hbnd_lt : bnd < R.length := by omega
          have hSb : spanStart R bnd < mPrev := by
            have h5 : spanStart R bnd ≤ spanStart R L := spanStart_mono R (by omega)
            omega
          obtain ⟨w, r0, hr0, hwb, hCb⟩ := (inv.boundary hbnd_lt).2 hSb
          exact ⟨w, r0, hr0, hCb, le_trans (Nat.min_le_right _ _) hwb⟩
      obtain ⟨w0, r0, hRF, hCFeq, hw0b⟩ := hremnant F (le_refl F) hFL
      have hnormF : normLen r0 = spanStart R (F+1) - spanStart R F := by
        rw [spanStart_succ_of_get R F r0 hRF]
        omega
      have hosfb : 0 < ms - spanStart R F →
          ms - spanStart R F < ({ r0 with text := r0.text.take w0 } : Run).text.length := by
        intro hpos
        have h2 : ms - spanStart R F < normLen r0 := by omega
        have h3 : normLen r0 ≤ r0.text.length := normalize_length_le r0.text
        simp only [List.length_take]
        omega
      -- every element of a slice of C inside [F, L] fails outPred
      have hqXg : ∀ (a b : Nat), F ≤ a → a + b ≤ L + 1 →
          ∀ r ∈ (C.drop a).take b, outPred R M r = false := by
        intro a b ha hab r hr
        obtain ⟨j, hgetj⟩ := List.mem_iff_get?.mp hr
        have hjlen := (List.get?_eq_some.mp hgetj).1
        rw [List.length_take, List.length_drop] at hjlen
        have hjlt : j < b := by omega
        rw [List.get?_take hjlt, List.get?_drop] at hgetj
        obtain ⟨w1, r1, hR1, hC1, _⟩ := hremnant (a + j) (by omega) (by omega)
        rw [hC1] at hgetj
        injection hgetj with hgetj
        have hid : r.id = some (a + j) := by
          rw [← hgetj]
          simpa using hids (a + j) r1 hR1
        unfold outPred
        rw [hid]
        exact hout (a + j) (by omega) (by omega)
      have hqX : ∀ r ∈ (C.drop F).take (L+1-F), outPred R M r = false :=
        fun r hr => hqXg F (L+1-F) le_rfl (by omega) r hr
      rw [hCFeq]
      dsimp only
      by_cases hosf : 0 < ms - spanStart R F
      · -- the first run is split in two, shifting the suffix of the live sequence by one
        rw [if_pos hosf, if_pos hosf, if_pos hosf]
        have hosfw0 : ms - spanStart R F ≤ w0 := by omega
        have hsplit1 := split_run_at_mid C F (ms - spanStart R F) _ hCFeq hosf (hosfb hosf)
        dsimp only at hsplit1
        rw [List.take_take, Nat.min_eq_left hosfw0] at hsplit1
        set lf : Run :=
          { text := List.take (ms - spanStart R F) r0.text, style := r0.style, id := r0.id }
          with hlf
        set rf : Run := clone_run_with_text
          { text := List.take w0 r0.text, style := r0.style, id := r0.id }
          (List.drop (ms - spanStart R F) (List.take w0 r0.text)) with hrf
        have hqlf : outPred R M lf = false := by
          rw [outPred_eq_of_id R M lf F (hids F r0 hRF)]
          exact hout F le_rfl hFL
        have hqrf : outPred R M rf = false := outPred_false_of_id_none R M rf rfl
        have hPlen : (C.take F ++ [lf]).length = F + 1 := by
          simp only [List.length_append, List.length_cons, List.length_nil, hlenPF]
        have hlen1 : (split_run_at C F (ms - spanStart R F)).2.length = C.length + 1 := by
          rw [hsplit1]
          simp only [List.length_append, List.length_cons, List.length_nil,
            List.length_take, List.length_drop]
          omega
        rw [hlen1, if_pos (show L + 1 < C.length + 1 by omega)]
        rcases Nat.eq_or_lt_of_le hFL with hFLeq | hFLlt
        · -- the match is contained in the single (remnant of) run F
          subst hFLeq
          have hgetlast : (split_run_at C F (ms - spanStart R F)).2.get? (F+1) =
              some rf := by
            rw [show (split_run_at C F (ms - spanStart R F)).2 =
                (C.take F ++ [lf]) ++ [rf] ++ C.drop (F+1) from by
              rw [hsplit1]; simp [List.append_assoc]]
            exact zone_get_head (C.take F ++ [lf]) rf [] (C.drop (F+1)) (F+1) hPlen
          rw [hgetlast]
          dsimp only
          by_cases holast : min (spanStart R (F+1) - spanStart R F) (me - spanStart R F) <
              rf.text.length
          · -- a right-hand sliver of the clone is split off again
            rw [if_pos holast]
            have h0oel : 0 < min (spanStart R (F+1) - spanStart R F)
                (me - spanStart R F) := by omega
            have hsplit2 := split_run_at_mid (split_run_at C F (ms - spanStart R F)).2 (F+1)
              (min (spanStart R (F+1) - spanStart R F) (me - spanStart R F)) rf hgetlast
              h0oel holast
            set lL : Run := { text := List.take (min (spanStart R (F+1) - spanStart R F)
              (me - spanStart R F)) rf.text, style := rf.style, id := rf.id } with hlL
            set rL : Run := clone_run_with_text rf (List.drop (min (spanStart R (F+1) -
              spanStart R F) (me - spanStart R F)) rf.text) with hrL
            set D := (split_run_at (split_run_at C F (ms - spanStart R F)).2 (F+1)
              (min (spanStart R (F+1) - spanStart R F) (me - spanStart R F))).2 with hDdef
            have htk1 : (split_run_at C F (ms - spanStart R F)).2.take (F+1) =
                C.take F ++ [lf] := by
              rw [show (split_run_at C F (ms - spanStart R F)).2 =
                  (C.take F ++ [lf]) ++ (rf :: C.drop (F+1)) from by
                rw [hsplit1]; simp [List.append_assoc]]
              exact List.take_left' hPlen
            have hdr1 : (split_run_at C F (ms - spanStart R F)).2.drop (F+1+1) =
                C.drop (F+1) := by
              rw [hsplit1]
              exact List.drop_left' (by
                simp only [List.length_append, List.length_cons, List.length_nil,
                  hlenPF])
            have hruns2 : D = C.take F ++ [lf, lL, rL] ++ C.drop (F+1) := by
              rw [hsplit2, htk1, hdr1]
              simp [List.append_assoc]
            have hlenD : D.length = C.length + 2 := by
              rw [hruns2]
              simp only [List.length_append, List.length_cons, List.length_nil,
                List.length_take, List.length_drop]
              omega
            rw [hlenD, show min (F+1+1) (C.length + 2) = F + 2 by omega]
            have hrtrne : List.drop (F+1) (List.take (F+2) D) ≠ [] := by
              intro hnil
              have h2 := congrArg List.length hnil
              simp only [List.length_drop, List.length_take, hlenD, List.length_nil] at h2
              omega
            rw [if_neg hrtrne]
            generalize hE : buildReplacement (List.drop (F+1) (List.take (F+2) D))
              new_text = E
            by_cases hEnil : E = []
            · rw [if_pos hEnil]
              refine ⟨_, _, F, rfl, ?_⟩
              refine frameInv_update R M C bnd mPrev inv ms F F ([lf, lL, rL]) _
                le_rfl hLbnd hLC hFn hcF.2.2 hruns2 hqX ?_ ?_
              · intro r hr
                simp only [List.mem_cons, List.not_mem_nil, or_false] at hr
                rcases hr with h | h | h
                · rw [h]; exact hqlf
                · rw [h]; exact outPred_false_of_id_none R M lL rfl
                · rw [h]; exact outPred_false_of_id_none R M rL rfl
              · intro _
                refine ⟨ms - spanStart R F, r0, hRF, le_rfl, ?_⟩
                rw [hruns2]
                exact zone_get_head (C.take F) lf [lL, rL] (C.drop (F+1)) F hlenPF
            · rw [if_neg hEnil]
              refine ⟨_, _, F, rfl, ?_⟩
              have hDtk : D.take (F+1) = C.take F ++ [lf] := by
                rw [hruns2, show C.take F ++ [lf, lL, rL] ++ C.drop (F+1) =
                    (C.take F ++ [lf]) ++ (lL :: rL :: C.drop (F+1)) from by
                  simp [List.append_assoc]]
                exact List.take_left' hPlen
              have hDdr : D.drop (F+2) = rL :: C.drop (F+1) := by
                rw [hruns2, show C.take F ++ [lf, lL, rL] ++ C.drop (F+1) =
                    (C.take F ++ [lf, lL]) ++ (rL :: C.drop (F+1)) from by
                  simp [List.append_assoc]]
                exact List.drop_left' (by
                  simp only [List.length_append, List.length_cons, List.length_nil,
                    hlenPF])
              have hC1 : D.take (F+1) ++ E ++ D.drop (F+2) =
                  C.take F ++ (lf :: (E ++ [rL])) ++ C.drop (F+1) := by
                rw [hDtk, hDdr]
                simp [List.append_assoc]
              refine frameInv_update R M C bnd mPrev inv ms F F (lf :: (E ++ [rL])) _
                le_rfl hLbnd hLC hFn hcF.2.2 hC1 hqX ?_ ?_
              · intro r hr
                simp only [List.mem_cons, List.mem_append, List.not_mem_nil, or_false] at hr
                rcases hr with h | h | h
                · rw [h]; exact hqlf
                · exact outPred_false_of_id_none R M r
                    (buildReplacement_id_none _ _ r (by rw [hE]; exact h))
                · rw [h]; exact outPred_false_of_id_none R M rL rfl
              · intro _
                refine ⟨ms - spanStart R F, r0, hRF, le_rfl, ?_⟩
                rw [hC1]
                exact zone_get_head (C.take F) lf (E ++ [rL]) (C.drop (F+1)) F hlenPF
          · -- the clone absorbs the rest of the match: no further split
            rw [if_neg holast]
            rw [hlen1, show min (F+1+1) (C.length + 1) = F + 2 by omega]
            have hrtrne : List.drop (F+1) (List.take (F+2)
                (split_run_at C F (ms - spanStart R F)).2) ≠ [] := by
              intro hnil
              have h2 := congrArg List.length hnil
              simp only [List.length_drop, List.length_take, hlen1, List.length_nil] at h2
              omega
            rw [if_neg hrtrne]
            generalize hE : buildReplacement (List.drop (F+1) (List.take (F+2)
              (split_run_at C F (ms - spanStart R F)).2)) new_text = E
            by_cases hEnil : E = []
            · rw [if_pos hEnil]
              refine ⟨_, _, F, rfl, ?_⟩
              refine frameInv_update R M C bnd mPrev inv ms F F ([lf, rf]) _
                le_rfl hLbnd hLC hFn hcF.2.2 hsplit1 hqX ?_ ?_
              · intro r hr
                simp only [List.mem_cons, List.not_mem_nil, or_false] at hr
                rcases hr with h | h
                · rw [h]; exact hqlf
                · rw [h]; exact hqrf
              · intro _
                refine ⟨ms - spanStart R F, r0, hRF, le_rfl, ?_⟩
                rw [hsplit1]
                exact zone_get_head (C.take F) lf [rf] (C.drop (F+1)) F hlenPF
            · rw [if_neg hEnil]
              refine ⟨_, _, F, rfl, ?_⟩
              have hDtk : (split_run_at C F (ms - spanStart R F)).2.take (F+1) =
                  C.take F ++ [lf] := by
                rw [show (split_run_at C F (ms - spanStart R F)).2 =
                    (C.take F ++ [lf]) ++ (rf :: C.drop (F+1)) from by
                  rw [hsplit1]; simp [List.append_assoc]]
                exact List.take_left' hPlen
              have hDdr : (split_run_at C F (ms - spanStart R F)).2.drop (F+2) =
                  C.drop (F+1) := by
                rw [hsplit1]
                exact List.drop_left' (by
                  simp only [List.length_append, List.length_cons, List.length_nil,
                    hlenPF])
              have hC1 : (split_run_at C F (ms - spanStart R F)).2.take (F+1) ++ E ++
                  (split_run_at C F (ms - spanStart R F)).2.drop (F+2) =
                  C.take F ++ (lf :: E) ++ C.drop (F+1) := by
                rw [hDtk, hDdr]
                simp [List.append_assoc]
              refine frameInv_update R M C bnd mPrev inv ms F F (lf :: E) _
                le_rfl hLbnd hLC hFn hcF.2.2 hC1 hqX ?_ ?_
              · intro r hr
                simp only [List.mem_cons] at hr
                rcases hr with h | h
                · rw [h]; exact hqlf
                · exact outPred_false_of_id_none R M r
                    (buildReplacement_id_none _ _ r (by rw [hE]; exact h))
              · intro _
                refine ⟨ms - spanStart R F, r0, hRF, le_rfl, ?_⟩
                rw [hC1]
                exact zone_get_head (C.take F) lf E (C.drop (F+1)) F hlenPF
        · -- F < L: the last affected run is the remnant at position L, shifted to L+1
          have hlen12 : (C.take F ++ [lf, rf]).length = F + 2 := by
            simp only [List.length_append, List.length_cons, List.length_nil,
              hlenPF]
          obtain ⟨wE, rE, hRE, hCE, hwEb⟩ := hremnant L (le_of_lt hFLlt) le_rfl
          set lastr : Run := { text := List.take wE rE.text, style := rE.style, id := rE.id }
            with hlastr
          have hgetlast : (split_run_at C F (ms - spanStart R F)).2.get? (L+1) =
              some lastr := by
            rw [hsplit1, List.get?_append_right (by rw [hlen12]; omega), hlen12,
              List.get?_drop, show F + 1 + (L + 1 - (F+2)) = L by omega]
            exact hCE
          rw [hgetlast]
          dsimp only
          by_cases holast : min (spanStart R (L+1) - spanStart R L) (me - spanStart R L) <
              lastr.text.length
          · -- the last remnant is split, keeping a sliver on the right
            rw [if_pos holast]
            have h0oel : 0 < min (spanStart R (L+1) - spanStart R L)
                (me - spanStart R L) := by omega
            have hsplit2 := split_run_at_mid (split_run_at C F (ms - spanStart R F)).2 (L+1)
              (min (spanStart R (L+1) - spanStart R L) (me - spanStart R L)) lastr hgetlast
              h0oel holast
            set lL : Run := { text := List.take (min (spanStart R (L+1) - spanStart R L)
              (me - spanStart R L)) lastr.text, style := lastr.style, id := lastr.id }
              with hlL
            set rL : Run := clone_run_with_text lastr (List.drop (min (spanStart R (L+1) -
              spanStart R L) (me - spanStart R L)) lastr.text) with hrL
            set D := (split_run_at (split_run_at C F (ms - spanStart R F)).2 (L+1)
              (min (spanStart R (L+1) - spanStart R L) (me - spanStart R L))).2 with hDdef
            have htk2 : (split_run_at C F (ms - spanStart R F)).2.take (L+1) =
                C.take F ++ [lf, rf] ++ (C.drop (F+1)).take (L+1-(F+2)) := by
              rw [hsplit1, List.take_append_eq_append_take,
                List.take_of_length_le (by rw [hlen12]; omega), hlen12]
            have hdr2 : (split_run_at C F (ms - spanStart R F)).2.drop (L+1+1) =
                C.drop (L+1) := by
              rw [hsplit1, List.drop_append_eq_append_drop,
                List.drop_of_length_le (by rw [hlen12]; omega), hlen12, List.drop_drop,
                show F + 1 + (L+1+1 - (F+2)) = L + 1 by omega]
              simp
            have hruns2 : D = C.take F ++
                ([lf, rf] ++ (C.drop (F+1)).take (L+1-(F+2)) ++ [lL, rL]) ++
                C.drop (L+1) := by
              rw [hsplit2, htk2, hdr2]
              simp [List.append_assoc]
            have hlenD : D.length = C.length + 2 := by
              rw [hruns2]
              simp only [List.length_append, List.length_cons, List.length_nil,
                List.length_take, List.length_drop]
              omega
            rw [hlenD, show min (L+1+1) (C.length + 2) = L + 2 by omega]
            have hrtrne : List.drop (F+1) (List.take (L+2) D) ≠ [] := by
              intro hnil
              have h2 := congrArg List.length hnil
              simp only [List.length_drop, List.length_take, hlenD, List.length_nil] at h2
              omega
            rw [if_neg hrtrne]
            generalize hE : buildReplacement (List.drop (F+1) (List.take (L+2) D))
              new_text = E
            by_cases hEnil : E = []
            · rw [if_pos hEnil]
              refine ⟨_, _, F, rfl, ?_⟩
              refine frameInv_update R M C bnd mPrev inv ms F L
                ([lf, rf] ++ (C.drop (F+1)).take (L+1-(F+2)) ++ [lL, rL]) _
                hFL hLbnd hLC hFn hcF.2.2 hruns2 hqX ?_ ?_
              · intro r hr
                simp only [List.mem_append, List.mem_cons, List.not_mem_nil, or_false] at hr
                rcases hr with (h | h) | h | h
                · rcases h with h | h
                  · rw [h]; exact hqlf
                  · rw [h]; exact hqrf
                · exact hqXg (F+1) (L+1-(F+2)) (by omega) (by omega) r h
                · rw [h]
                  rw [outPred_eq_of_id R M lL L (hids L rE hRE)]
                  exact hout L (le_of_lt hFLlt) le_rfl
                · rw [h]; exact outPred_false_of_id_none R M rL rfl
              · intro _
                refine ⟨ms - spanStart R F, r0, hRF, le_rfl, ?_⟩
                rw [hruns2, show C.take F ++
                    ([lf, rf] ++ (C.drop (F+1)).take (L+1-(F+2)) ++ [lL, rL]) ++
                    C.drop (L+1) = C.take F ++
                    (lf :: (rf :: ((C.drop (F+1)).take (L+1-(F+2)) ++ [lL, rL]))) ++
                    C.drop (L+1) from by simp [List.append_assoc]]
                exact zone_get_head (C.take F) lf _ (C.drop (L+1)) F hlenPF
            · rw [if_neg hEnil]
              refine ⟨_, _, F, rfl, ?_⟩
              have hDtk : D.take (F+1) = C.take F ++ [lf] := by
                rw [hruns2, show C.take F ++
                    ([lf, rf] ++ (C.drop (F+1)).take (L+1-(F+2)) ++ [lL, rL]) ++
                    C.drop (L+1) = (C.take F ++ [lf]) ++
                    (rf :: ((C.drop (F+1)).take (L+1-(F+2)) ++ lL :: rL :: C.drop (L+1)))
                    from by simp [List.append_assoc]]
                exact List.take_left' hPlen
              have hDdr : D.drop (L+2) = rL :: C.drop (L+1) := by
                rw [hruns2, show C.take F ++
                    ([lf, rf] ++ (C.drop (F+1)).take (L+1-(F+2)) ++ [lL, rL]) ++
                    C.drop (L+1) =
                    (C.take F ++ ([lf, rf] ++ (C.drop (F+1)).take (L+1-(F+2)) ++ [lL])) ++
                    (rL :: C.drop (L+1)) from by simp [List.append_assoc]]
                exact List.drop_left' (by
                  simp only [List.length_append, List.length_cons, List.length_nil,
                    List.length_take, List.length_drop, hlenPF]
                  omega)
              have hC1 : D.take (F+1) ++ E ++ D.drop (L+2) =
                  C.take F ++ (lf :: (E ++ [rL])) ++ C.drop (L+1) := by
                rw [hDtk, hDdr]
                simp [List.append_assoc]
              refine frameInv_update R M C bnd mPrev inv ms F L (lf :: (E ++ [rL])) _
                hFL hLbnd hLC hFn hcF.2.2 hC1 hqX ?_ ?_
              · intro r hr
                simp only [List.mem_cons, List.mem_append, List.not_mem_nil, or_false] at hr
                rcases hr with h | h | h
                · rw [h]; exact hqlf
                · exact outPred_false_of_id_none R M r
                    (buildReplacement_id_none _ _ r (by rw [hE]; exact h))
                · rw [h]; exact outPred_false_of_id_none R M rL rfl
              · intro _
                refine ⟨ms - spanStart R F, r0, hRF, le_rfl, ?_⟩
                rw [hC1]
                exact zone_get_head (C.take F) lf (E ++ [rL]) (C.drop (L+1)) F hlenPF
          · -- the last remnant is consumed whole
            rw [if_neg holast]
            rw [hlen1, show min (L+1+1) (C.length + 1) = L + 2 by omega]
            have hsfx : C.drop (F+1) = (C.drop (F+1)).take (L-F) ++ C.drop (L+1) := by
              conv_lhs => rw [← List.take_append_drop (L-F) (C.drop (F+1))]
              rw [List.drop_drop, show F + 1 + (L-F) = L + 1 by omega]
            have hrtrne : List.drop (F+1) (List.take (L+2)
                (split_run_at C F (ms - spanStart R F)).2) ≠ [] := by
              intro hnil
              have h2 := congrArg List.length hnil
              simp only [List.length_drop, List.length_take, hlen1, List.length_nil] at h2
              omega
            rw [if_neg hrtrne]
            generalize hE : buildReplacement (List.drop (F+1) (List.take (L+2)
              (split_run_at C F (ms - spanStart R F)).2)) new_text = E
            by_cases hEnil : E = []
            · rw [if_pos hEnil]
              refine ⟨_, _, F, rfl, ?_⟩
              have hC1 : (split_run_at C F (ms - spanStart R F)).2 =
                  C.take F ++ ([lf, rf] ++ (C.drop (F+1)).take (L-F)) ++ C.drop (L+1) := by
                rw [hsplit1]
                conv_lhs => rw [hsfx]
                simp [List.append_assoc]
              refine frameInv_update R M C bnd mPrev inv ms F L
                ([lf, rf] ++ (C.drop (F+1)).take (L-F)) _
                hFL hLbnd hLC hFn hcF.2.2 hC1 hqX ?_ ?_
              · intro r hr
                simp only [List.mem_append, List.mem_cons, List.not_mem_nil, or_false] at hr
                rcases hr with (h | h) | h
                · rw [h]; exact hqlf
                · rw [h]; exact hqrf
                · exact hqXg (F+1) (L-F) (by omega) (by omega) r h
              · intro _
                refine ⟨ms - spanStart R F, r0, hRF, le_rfl, ?_⟩
                rw [hC1, show C.take F ++ ([lf, rf] ++ (C.drop (F+1)).take (L-F)) ++
                    C.drop (L+1) = C.take F ++
                    (lf :: (rf :: (C.drop (F+1)).take (L-F))) ++ C.drop (L+1) from by
                  simp [List.append_assoc]]
                exact zone_get_head (C.take F) lf _ (C.drop (L+1)) F hlenPF
            · rw [if_neg hEnil]
              refine ⟨_, _, F, rfl, ?_⟩
              have hDtk : (split_run_at C F (ms - spanStart R F)).2.take (F+1) =
                  C.take F ++ [lf] := by
                rw [show (split_run_at C F (ms - spanStart R F)).2 =
                    (C.take F ++ [lf]) ++ (rf :: C.drop (F+1)) from by
                  rw [hsplit1]; simp [List.append_assoc]]
                exact List.take_left' hPlen
              have hDdr : (split_run_at C F (ms - spanStart R F)).2.drop (L+2) =
                  C.drop (L+1) := by
                rw [hsplit1, List.drop_append_eq_append_drop,
                  List.drop_of_length_le (by rw [hlen12]; omega), hlen12, List.drop_drop,
                  show F + 1 + (L+2 - (F+2)) = L + 1 by omega]
                simp
              have hC1 : (split_run_at C F (ms - spanStart R F)).2.take (F+1) ++ E ++
                  (split_run_at C F (ms - spanStart R F)).2.drop (L+2) =
                  C.take F ++ (lf :: E) ++ C.drop (L+1) := by
                rw [hDtk, hDdr]
                simp [List.append_assoc]
              refine frameInv_update R M C bnd mPrev inv ms F L (lf :: E) _
                hFL hLbnd hLC hFn hcF.2.2 hC1 hqX ?_ ?_
              · intro r hr
                simp only [List.mem_cons] at hr
                rcases hr with h | h
                · rw [h]; exact hqlf
                · exact outPred_false_of_id_none R M r
                    (buildReplacement_id_none _ _ r (by rw [hE]; exact h))
              · intro _
                refine ⟨ms - spanStart R F, r0, hRF, le_rfl, ?_⟩
                rw [hC1]
                exact zone_get_head (C.take F) lf E (C.drop (L+1)) F hlenPF
      · -- the match starts at or before run F's start: no first split
        rw [if_neg hosf, if_neg hosf, if_neg hosf]
        rw [if_pos hLC]
        obtain ⟨wE, rE, hRE, hCE, hwEb⟩ := hremnant L hFL le_rfl
        set lastr : Run := { text := List.take wE rE.text, style := rE.style, id := rE.id }
          with hlastr
        rw [hCE]
        dsimp only
        by_cases holast : min (spanStart R (L+1) - spanStart R L) (me - spanStart R L) <
            lastr.text.length
        · rw [if_pos holast]
          have h0oel : 0 < min (spanStart R (L+1) - spanStart R L)
              (me - spanStart R L) := by omega
          have hsplit2 := split_run_at_mid C L
            (min (spanStart R (L+1) - spanStart R L) (me - spanStart R L)) lastr hCE
            h0oel holast
          set lL : Run := { text := List.take (min (spanStart R (L+1) - spanStart R L)
            (me - spanStart R L)) lastr.text, style := lastr.style, id := lastr.id }
            with hlL
          set rL : Run := clone_run_with_text lastr (List.drop (min (spanStart R (L+1) -
            spanStart R L) (me - spanStart R L)) lastr.text) with hrL
          set D := (split_run_at C L
            (min (spanStart R (L+1) - spanStart R L) (me - spanStart R L))).2 with hDdef
          have htkC : C.take L = C.take F ++ (C.drop F).take (L - F) := by
            conv_lhs => rw [show L = F + (L - F) by omega]
            rw [List.take_add]
          have hruns2 : D = C.take F ++ ((C.drop F).take (L - F) ++ [lL, rL]) ++
              C.drop (L+1) := by
            rw [hsplit2]
            conv_lhs => rw [htkC]
            simp [List.append_assoc]
          have hlenD : D.length = C.length + 1 := by
            rw [hruns2]
            simp only [List.length_append, List.length_cons, List.length_nil,
              List.length_take, List.length_drop]
            omega
          rw [hlenD, show min (L+1) (C.length + 1) = L + 1 by omega]
          have hrtrne : List.drop F (List.take (L+1) D) ≠ [] := by
            intro hnil
            have h2 := congrArg List.length hnil
            simp only [List.length_drop, List.length_take, hlenD, List.length_nil] at h2
            omega
          rw [if_neg hrtrne]
          generalize hE : buildReplacement (List.drop F (List.take (L+1) D)) new_text = E
          by_cases hEnil : E = []
          · rw [if_pos hEnil]
            refine ⟨_, _, F, rfl, ?_⟩
            refine frameInv_update R M C bnd mPrev inv ms F L
              ((C.drop F).take (L - F) ++ [lL, rL]) _ hFL hLbnd hLC hFn hcF.2.2 hruns2
              hqX ?_ ?_
            · intro r hr
              simp only [List.mem_append, List.mem_cons, List.not_mem_nil, or_false] at hr
              rcases hr with h | h | h
              · exact hqXg F (L - F) le_rfl (by omega) r h
              · rw [h]
                rw [outPred_eq_of_id R M lL L (hids L rE hRE)]
                exact hout L hFL le_rfl
              · rw [h]; exact outPred_false_of_id_none R M rL rfl
            · intro hSF
              exact absurd hSF (by omega)
          · rw [if_neg hEnil]
            refine ⟨_, _, F, rfl, ?_⟩
            have hDtk : D.take F = C.take F := by
              rw [hruns2, List.take_append_of_le_length (by
                  simp only [List.length_append, hlenPF]; omega),
                List.take_append_of_le_length (by rw [hlenPF]),
                List.take_take, Nat.min_self]
            have hDdr : D.drop (L+1) = rL :: C.drop (L+1) := by
              rw [hruns2, show C.take F ++ ((C.drop F).take (L - F) ++ [lL, rL]) ++
                  C.drop (L+1) = (C.take F ++ ((C.drop F).take (L - F) ++ [lL])) ++
                  (rL :: C.drop (L+1)) from by simp [List.append_assoc]]
              exact List.drop_left' (by
                simp only [List.length_append, List.length_cons, List.length_nil,
                  List.length_take, List.length_drop, hlenPF]
                omega)
            have hC1 : D.take F ++ E ++ D.drop (L+1) =
                C.take F ++ (E ++ [rL]) ++ C.drop (L+1) := by
              rw [hDtk, hDdr]
              simp [List.append_assoc]
            refine frameInv_update R M C bnd mPrev inv ms F L (E ++ [rL]) _
              hFL hLbnd hLC hFn hcF.2.2 hC1 hqX ?_ ?_
            · intro r hr
              simp only [List.mem_append, List.mem_singleton] at hr
              rcases hr with h | h
              · exact outPred_false_of_id_none R M r
                  (buildReplacement_id_none _ _ r (by rw [hE]; exact h))
              · rw [h]; exact outPred_false_of_id_none R M rL rfl
            · intro hSF
              exact absurd hSF (by omega)
        · rw [if_neg holast]
          rw [show min (L+1) C.length = L + 1 by omega]
          have hrtrne : List.drop F (List.take (L+1) C) ≠ [] := by
            intro hnil
            have h2 := congrArg List.length hnil
            simp only [List.length_drop, List.length_take, List.length_nil] at h2
            omega
          rw [if_neg hrtrne]
          generalize hE : buildReplacement (List.drop F (List.take (L+1) C)) new_text = E
          by_cases hEnil : E = []
          · rw [if_pos hEnil]
            refine ⟨_, _, F, rfl, ?_⟩
            have hC1 : C = C.take F ++ (C.drop F).take (L+1-F) ++ C.drop (L+1) := by
              rw [← List.take_add, show F + (L+1-F) = L+1 by omega]
              exact (List.take_append_drop (L+1) C).symm
            refine frameInv_update R M C bnd mPrev inv ms F L ((C.drop F).take (L+1-F)) _
              hFL hLbnd hLC hFn hcF.2.2 hC1 hqX ?_ ?_
            · exact hqX
            · intro hSF
              exact absurd hSF (by omega)
          · rw [if_neg hEnil]
            refine ⟨_, _, F, rfl, ?_⟩
            refine frameInv_update R M C bnd mPrev inv ms F L E _
              hFL hLbnd hLC hFn hcF.2.2 rfl hqX ?_ ?_
            · intro r hr
              exact outPred_false_of_id_none R M r
                (buildReplacement_id_none _ _ r (by rw [hE]; exact hr))
            · intro hSF
              exact absurd hSF (by omega)

theorem frame_fold (R : List Run) (M : List (Nat × Nat)) (new_text : Txt)
    (hids : ∀ i r, R.get? i = some r → r.id = some i) :
    ∀ (Mr : List (Nat × Nat)) (C : List Run) (bnd mPrev : Nat),
      (∀ m ∈ Mr, m ∈ M) →
      List.Chain' (fun prev cur => cur.1 < prev.1 ∧ cur.2 ≤ prev.1) ((mPrev, mPrev) :: Mr) →
      FrameInv R M C bnd mPrev →
      ∃ C1 cnt bnd1 mPrev1,
        processMatchesStd (run_map R) new_text Mr C = .ok (C1, cnt) ∧
        FrameInv R M C1 bnd1 mPrev1 := by
  intro Mr
  induction Mr with
  | nil =>
      intro C bnd mPrev _ _ inv
      exact ⟨C, 0, bnd, mPrev, rfl, inv⟩
  | cons m rest ih =>
      intro C bnd mPrev hsub hch inv
      obtain ⟨ms, me⟩ := m
      have hrel : ms < mPrev ∧ me ≤ mPrev := (List.chain'_cons.mp hch).1
      obtain ⟨C1, flag, bnd1, hok, inv1⟩ := frame_step R M new_text hids C bnd mPrev inv
        ms me (hsub (ms, me) (List.mem_cons_self _ _)) hrel.1 hrel.2
      have hch1 : List.Chain' (fun prev cur => cur.1 < prev.1 ∧ cur.2 ≤ prev.1)
          ((ms, ms) :: rest) := by
        have h2 := (List.chain'_cons.mp hch).2
        cases rest with
        | nil => simp
        | cons b rest2 =>
            rw [List.chain'_cons] at h2 ⊢
            exact ⟨h2.1, h2.2⟩
      obtain ⟨C2, cnt, bnd2, mPrev2, hok2, inv2⟩ := ih C1 bnd1 ms
        (fun m hm => hsub m (List.mem_cons_of_mem _ hm)) hch1 inv1
      refine ⟨C2, (if flag then 1 else 0) + cnt, bnd2, mPrev2, ?_, inv2⟩
      rw [processMatchesStd, hok]
      dsimp only
      rw [hok2]

theorem standard_frame_ok (R : List Run) (oldN newT : Txt)
    (hids : ∀ i r, R.get? i = some r → r.id = some i)
    (hdisj : List.Chain' (fun m1 m2 => m1.2 ≤ m2.1) (collectMatches (flatNorm R) oldN)) :
    ∃ C1 cnt,
      process_paragraph_standard R (flatNorm R) (run_map R) oldN newT = .ok (C1, cnt) ∧
      outsideFilter R (collectMatches (flatNorm R) oldN) C1 =
        outsideFilter R (collectMatches (flatNorm R) oldN) R := by
  unfold process_paragraph_standard
  by_cases hguard : flatNorm R = [] ∨ ¬ containsSub (flatNorm R) oldN
  · rw [if_pos hguard]
    exact ⟨R, 0, rfl, rfl⟩
  · rw [if_neg hguard]
    have hchainlt := collectMatchesAux_chain (flatNorm R) oldN ((flatNorm R).length + 2) 0
    have hcomb := chain'_and _ _ _ hchainlt hdisj
    have hrev : List.Chain' (fun prev cur => cur.1 < prev.1 ∧ cur.2 ≤ prev.1)
        (collectMatches (flatNorm R) oldN).reverse := by
      rw [List.chain'_reverse]
      exact hcomb
    have hsent : List.Chain' (fun prev cur => cur.1 < prev.1 ∧ cur.2 ≤ prev.1)
        (((flatNorm R).length + 1, (flatNorm R).length + 1) ::
          (collectMatches (flatNorm R) oldN).reverse) := by
      cases hrv : (collectMatches (flatNorm R) oldN).reverse with
      | nil => simp
      | cons b rest =>
          rw [List.chain'_cons]
          refine ⟨?_, ?_⟩
          · have hbmem : b ∈ collectMatches (flatNorm R) oldN := by
              rw [← List.mem_reverse, hrv]
              exact List.mem_cons_self _ _
            have hb := collectMatchesAux_mem (flatNorm R) oldN ((flatNorm R).length + 2)
              0 b hbmem
            exact ⟨by omega, by omega⟩
          · rw [← hrv]
            exact hrev
    have hinv0 : FrameInv R (collectMatches (flatNorm R) oldN) R R.length
        ((flatNorm R).length + 1) :=
      ⟨rfl, rfl, le_rfl, fun h => absurd h (lt_irrefl _)⟩
    obtain ⟨C1, cnt, bnd1, mPrev1, hok, inv1⟩ := frame_fold R
      (collectMatches (flatNorm R) oldN) newT hids
      (collectMatches (flatNorm R) oldN).reverse R R.length ((flatNorm R).length + 1)
      (fun m hm => List.mem_reverse.mp hm) hsent hinv0
    exact ⟨C1, cnt, hok, inv1.filter_eq⟩

/-- C1 (amended): on the standard path with pairwise non-overlapping match
spans, the replace-all pass succeeds and the sublist of original runs lying
entirely outside every match span is preserved exactly (same runs, same
text and style). -/
theorem frame_preservation_of_outside_runs (R : List Run) (oldN newT : Txt)
    (hids : ∀ i r, R.get? i = some r → r.id = some i)
    (hdisj : List.Chain' (fun m1 m2 => m1.2 ≤ m2.1) (collectMatches (flatNorm R) oldN)) :
    ∃ C1 cnt,
      process_paragraph_standard R (flatNorm R) (run_map R) oldN newT = .ok (C1, cnt) ∧
      outsideFilter R (collectMatches (flatNorm R) oldN) C1 =
        outsideFilter R (collectMatches (flatNorm R) oldN) R :=
  standard_frame_ok R oldN newT hids hdisj

theorem frame_preservation_of_outside_runs_witness :
    (∀ i r, wFrameRuns.get? i = some r → r.id = some i) ∧
    List.Chain' (fun m1 m2 => m1.2 ≤ m2.1)
      (collectMatches (flatNorm wFrameRuns) "world".data) ∧
    ∃ C1 cnt,
      process_paragraph_standard wFrameRuns (flatNorm wFrameRuns) (run_map wFrameRuns)
          "world".data "X".data = .ok (C1, cnt) ∧
      outsideFilter wFrameRuns (collectMatches (flatNorm wFrameRuns) "world".data) C1 =
        outsideFilter wFrameRuns (collectMatches (flatNorm wFrameRuns) "world".data)
          wFrameRuns := by
  have hids : ∀ i r, wFrameRuns.get? i = some r → r.id = some i := by
    intro i r h
    rcases i with _ | _ | _ | n
    · injection h with h2
      rw [← h2]
    · injection h with h2
      rw [← h2]
    · injection h with h2
      rw [← h2]
    · simp [wFrameRuns] at h
  have hdisj : List.Chain' (fun m1 m2 => m1.2 ≤ m2.1)
      (collectMatches (flatNorm wFrameRuns) "world".data) := by
    rw [show collectMatches (flatNorm wFrameRuns) "world".data = [(6, 11)] from rfl]
    simp
  exact ⟨hids, hdisj,
    frame_preservation_of_outside_runs wFrameRuns "world".data "X".data hids hdisj⟩

theorem findIdx_found {α : Type} (p : α → Bool) :
    ∀ (l : List α) (j : Nat), l.findIdx? p = some j →
      ∃ y, l.get? j = some y ∧ p y = true := by
  intro l
  induction l with
  | nil =>
      intro j h
      rw [List.findIdx?_nil] at h
      exact absurd h (by simp)
  | cons x xs ih =>
      intro j h
      rw [List.findIdx?_cons] at h
      by_cases hp : p x = true
      · rw [if_pos hp] at h
        injection h with h
        subst h
        exact ⟨x, rfl, hp⟩
      · rw [if_neg hp] at h
        rw [List.findIdx?_succ] at h
        cases hf : List.findIdx? p xs with
        | none => rw [hf] at h; exact absurd h (by simp)
        | some j0 =>
            rw [hf] at h
            simp only [Option.map_some'] at h
            injection h with h
            subst h
            obtain ⟨y, hy, hpy⟩ := ih j0 hf
            exact ⟨y, hy, hpy⟩

theorem findIdx_exists {α : Type} (p : α → Bool) (l : List α) (x : α)
    (hx : x ∈ l) (hp : p x = true) : ∃ j, l.findIdx? p = some j := by
  cases h : l.findIdx? p with
  | some j => exact ⟨j, rfl⟩
  | none =>
      rw [List.findIdx?_eq_none_iff] at h
      rw [h x hx] at hp
      exact absurd hp (by simp)

theorem mem_eraseIdx_of_get_ne {α : Type} (l : List α) (j k : Nat) (x : α)
    (hk : l.get? k = some x) (hne : k ≠ j) : x ∈ l.eraseIdx j := by
  rw [List.eraseIdx_eq_take_drop_succ]
  rcases Nat.lt_or_ge k j with h | h
  · have h1 : (l.take j).get? k = some x := by
      rw [List.get?_take h]
      exact hk
    exact List.mem_append_left _ (List.get?_mem h1)
  · have hkj : j + 1 ≤ k := by omega
    have h1 : (l.drop (j+1)).get? (k - (j+1)) = some x := by
      rw [List.get?_drop, show j + 1 + (k - (j+1)) = k by omega]
      exact hk
    exact List.mem_append_right _ (List.get?_mem h1)

theorem removeAffectedXml_ok :
    ∀ (aff : List (Run × Nat × Nat × Nat)) (cur : List Run),
      (∀ a ∈ aff, ∃ n, a.1.id = some n) →
      (∀ a ∈ aff, ∃ x, x ∈ cur ∧ x.id = a.1.id) →
      List.Pairwise (fun a b => a.1.id ≠ b.1.id) aff →
      ∃ out, removeAffectedXml aff cur = .ok out := by
  intro aff
  induction aff with
  | nil =>
      intro cur _ _ _
      exact ⟨cur, rfl⟩
  | cons a rest ih =>
      intro cur hsome hpres hpw
      obtain ⟨n, hn⟩ := hsome a (List.mem_cons_self _ _)
      obtain ⟨x, hxmem, hxid⟩ := hpres a (List.mem_cons_self _ _)
      have hpx : (fun r : Run => decide (r.id = some n)) x = true := by
        simp [hxid, hn]
      obtain ⟨j, hj⟩ := findIdx_exists (fun r : Run => decide (r.id = some n)) cur x
        hxmem hpx
      obtain ⟨y, hy, hpy⟩ := findIdx_found _ cur j hj
      have hyid : y.id = some n := by simpa using hpy
      rw [removeAffectedXml]
      unfold findRunIdxById
      rw [hn]
      dsimp only
      rw [hj]
      dsimp only
      apply ih
      · intro b hb
        exact hsome b (List.mem_cons_of_mem _ hb)
      · intro b hb
        obtain ⟨xb, hxbmem, hxbid⟩ := hpres b (List.mem_cons_of_mem _ hb)
        obtain ⟨kb, hkb⟩ := List.mem_iff_get?.mp hxbmem
        have hbne := (List.pairwise_cons.mp hpw).1 b hb
        refine ⟨xb, ?_, hxbid⟩
        apply mem_eraseIdx_of_get_ne cur j kb xb hkb
        intro hkj
        rw [hkj, hy] at hkb
        injection hkb with hkb2
        apply hbne
        rw [hn, ← hxbid, ← hkb2, hyid]
      · exact (List.pairwise_cons.mp hpw).2

theorem affectedXml_mem (runs : List Run) (ms me : Nat) (a : Run × Nat × Nat × Nat)
    (ha : a ∈ affectedXmlOf (build_xml_run_map runs).2 ms me) :
    ∃ i, runs.get? i = some a.1 := by
  unfold affectedXmlOf at ha
  rw [List.mem_filterMap] at ha
  obtain ⟨e, he, hge⟩ := ha
  unfold build_xml_run_map at he
  dsimp only at he
  rw [List.mem_filterMap] at he
  obtain ⟨i, _, hgi⟩ := he
  cases hri : runs.get? i with
  | none =>
      rw [hri] at hgi
      exact absurd hgi (by simp)
  | some r =>
      rw [hri] at hgi
      dsimp only at hgi
      by_cases hne : r.text ≠ []
      · rw [if_pos hne] at hgi
        injection hgi with hgi
        by_cases hcond : e.1 < me ∧ ms < e.2.1
        · rw [if_pos hcond] at hge
          injection hge with hge
          have ha1 : a.1 = e.2.2 := by rw [← hge]
          have he22 : e.2.2 = r := by rw [← hgi]
          refine ⟨i, ?_⟩
          rw [ha1, he22]
          exact hri
        · rw [if_neg hcond] at hge
          exact absurd hge (by simp)
      · rw [if_neg hne] at hgi
        exact absurd hgi (by simp)

theorem xrm_pairwise (runs : List Run)
    (hids : ∀ i r, runs.get? i = some r → r.id = some i) :
    List.Pairwise (fun e1 e2 : Nat × Nat × Run => e1.2.2.id ≠ e2.2.2.id)
      (build_xml_run_map runs).2 := by
  unfold build_xml_run_map
  dsimp only
  rw [List.pairwise_filterMap]
  refine List.Pairwise.imp ?_ (List.pairwise_lt_range runs.length)
  intro i j hij e1 he1 e2 he2
  rw [Option.mem_def] at he1 he2
  cases h1 : runs.get? i with
  | none => rw [h1] at he1; exact absurd he1 (by simp)
  | some r1 =>
      cases h2 : runs.get? j with
      | none => rw [h2] at he2; exact absurd he2 (by simp)
      | some r2 =>
          rw [h1] at he1
          rw [h2] at he2
          dsimp only at he1 he2
          by_cases hn1 : r1.text ≠ []
          · by_cases hn2 : r2.text ≠ []
            · rw [if_pos hn1] at he1
              rw [if_pos hn2] at he2
              injection he1 with he1
              injection he2 with he2
              have hi1 : e1.2.2 = r1 := by rw [← he1]
              have hi2 : e2.2.2 = r2 := by rw [← he2]
              rw [hi1, hi2, hids i r1 h1, hids j r2 h2]
              simp
              omega
            · rw [if_neg hn2] at he2
              exact absurd he2 (by simp)
          · rw [if_neg hn1] at he1
            exact absurd he1 (by simp)

theorem affected_pairwise (runs : List Run) (ms me : Nat)
    (hids : ∀ i r, runs.get? i = some r → r.id = some i) :
    List.Pairwise (fun a b : Run × Nat × Nat × Nat => a.1.id ≠ b.1.id)
      (affectedXmlOf (build_xml_run_map runs).2 ms me) := by
  unfold affectedXmlOf
  rw [List.pairwise_filterMap]
  refine List.Pairwise.imp ?_ (xrm_pairwise runs hids)
  intro e1 e2 hne a ha b hb
  rw [Option.mem_def] at ha hb
  by_cases h1 : e1.1 < me ∧ ms < e1.2.1
  · by_cases h2 : e2.1 < me ∧ ms < e2.2.1
    · rw [if_pos h1] at ha
      rw [if_pos h2] at hb
      injection ha with ha
      injection hb with hb
      have ha1 : a.1 = e1.2.2 := by rw [← ha]
      have hb1 : b.1 = e2.2.2 := by rw [← hb]
      rw [ha1, hb1]
      exact hne
    · rw [if_neg h2] at hb
      exact absurd hb (by simp)
  · rw [if_neg h1] at ha
    exact absurd ha (by simp)

theorem processMatchXml_ok (runs : List Run) (new_text : Txt) (m : Nat × Nat)
    (hids : ∀ i r, runs.get? i = some r → r.id = some i) :
    ∃ out, processMatchXml (build_xml_run_map runs).2 new_text runs m = .ok out := by
  unfold processMatchXml
  dsimp only
  cases haff : affectedXmlOf (build_xml_run_map runs).2 m.1 m.2 with
  | nil => exact ⟨(runs, false), rfl⟩
  | cons a0 arest =>
      dsimp only
      by_cases hrepl : buildReplacementXml (a0 :: arest) new_text = []
      · rw [if_pos hrepl]
        exact ⟨(runs, true), rfl⟩
      · rw [if_neg hrepl]
        obtain ⟨i0, hi0⟩ := affectedXml_mem runs m.1 m.2 a0
          (by rw [haff]; exact List.mem_cons_self _ _)
        have ha0id : a0.1.id = some i0 := hids i0 a0.1 hi0
        have hp0 : (fun r : Run => decide (r.id = some i0)) a0.1 = true := by
          simp [ha0id]
        obtain ⟨ip, hip⟩ := findIdx_exists (fun r : Run => decide (r.id = some i0)) runs
          a0.1 (List.get?_mem hi0) hp0
        unfold findRunIdxById
        rw [ha0id]
        dsimp only
        rw [hip]
        dsimp only
        obtain ⟨out, hrem⟩ := removeAffectedXml_ok (a0 :: arest)
          (runs.take ip ++ buildReplacementXml (a0 :: arest) new_text ++ runs.drop ip)
          (by
            intro b hb
            obtain ⟨i, hi⟩ := affectedXml_mem runs m.1 m.2 b (by rw [haff]; exact hb)
            exact ⟨i, hids i b.1 hi⟩)
          (by
            intro b hb
            obtain ⟨i, hi⟩ := affectedXml_mem runs m.1 m.2 b (by rw [haff]; exact hb)
            refine ⟨b.1, ?_, rfl⟩
            have hmem : b.1 ∈ runs := List.get?_mem hi
            rw [← List.take_append_drop ip runs] at hmem
            rcases List.mem_append.mp hmem with h | h
            · exact List.mem_append_left _ (List.mem_append_left _ h)
            · exact List.mem_append_right _ h)
          (by rw [← haff]; exact affected_pairwise runs m.1 m.2 hids)
        rw [hrem]
        exact ⟨(out, true), rfl⟩

theorem process_paragraph_xml_ok (runs : List Run) (oldN new_text : Txt)
    (hids : ∀ i r, runs.get? i = some r → r.id = some i)
    (hlen : (collectMatches (build_xml_run_map runs).1 oldN).length ≤ 1) :
    ∃ out, process_paragraph_xml runs (build_xml_run_map runs).1
      (build_xml_run_map runs).2 oldN new_text = .ok out := by
  unfold process_paragraph_xml
  by_cases hguard : (build_xml_run_map runs).1 = [] ∨
      ¬ containsSub (build_xml_run_map runs).1 oldN
  · rw [if_pos hguard]
    exact ⟨(runs, 0), rfl⟩
  · rw [if_neg hguard]
    cases hM : collectMatches (build_xml_run_map runs).1 oldN with
    | nil => exact ⟨(runs, 0), rfl⟩
    | cons m rest =>
        cases rest with
        | nil =>
            obtain ⟨⟨runs1, flag⟩, hok1⟩ := processMatchXml_ok runs new_text m hids
            refine ⟨(runs1, (if flag then 1 else 0) + 0), ?_⟩
            rw [show ([m] : List (Nat × Nat)).reverse = [m] from rfl,
              processMatchesXml, hok1]
            dsimp only
            rw [processMatchesXml]
        | cons m2 rest2 =>
            rw [hM] at hlen
            simp at hlen

theorem foldProc_ok {a b : Type} (f : a → Except String (b × Nat × List String)) :
    ∀ l : List a, (∀ x ∈ l, ∃ y, f x = .ok y) →
      ∃ z, foldProc f l = .ok z := by
  intro l
  induction l with
  | nil => exact fun _ => ⟨([], 0, []), rfl⟩
  | cons x rest ih =>
      intro h
      obtain ⟨⟨y, n, lg⟩, hy⟩ := h x (List.mem_cons_self _ _)
      obtain ⟨⟨ys, m2, lg1⟩, hys⟩ := ih (fun z hz => h z (List.mem_cons_of_mem _ hz))
      refine ⟨(y :: ys, n + m2, lg ++ lg1), ?_⟩
      rw [foldProc, hy]
      dsimp only
      rw [hys]

theorem process_paragraph_ok (dbg : Bool) (old_text new_text : Txt) (p : Paragraph)
    (hsafe : ParaSafe old_text p) :
    ∃ out, process_paragraph dbg old_text new_text p = .ok out := by
  obtain ⟨hids, hcase⟩ := hsafe
  unfold process_paragraph
  by_cases htoc : p.isTOC = true
  · rw [if_pos htoc]
    exact ⟨(p, 0, []), rfl⟩
  · rw [if_neg htoc]
    dsimp only
    rcases hcase with h | ⟨hcon, hdisj⟩ | ⟨hncon, hlen⟩
    · exact absurd h htoc
    · have hids' : ∀ i r, p.directRuns.get? i = some r → r.id = some i := by
        unfold Paragraph.directRuns
        by_cases hw : p.wrapped = true
        · rw [if_pos hw]
          intro i r h
          simp at h
        · rw [if_neg hw]
          exact hids
      rw [if_pos hcon]
      obtain ⟨C1, cnt, hok, _⟩ := standard_frame_ok p.directRuns
        (normalize_text_for_search old_text) new_text hids' hdisj
      rw [hok]
      dsimp only
      exact ⟨_, rfl⟩
    · rw [if_neg (by rw [hncon]; simp : ¬ containsSub (flatNorm p.directRuns)
        (normalize_text_for_search old_text) = true)]
      by_cases hcon2 : containsSub (build_xml_run_map p.runs).1
          (normalize_text_for_search old_text) = true
      · rw [if_pos hcon2]
        obtain ⟨⟨runs1, n⟩, hok⟩ := process_paragraph_xml_ok p.runs
          (normalize_text_for_search old_text) new_text hids hlen
        rw [hok]
        dsimp only
        exact ⟨_, rfl⟩
      · rw [if_neg hcon2]
        exact ⟨_, rfl⟩

/-- C9 (amended): when every paragraph of the document satisfies the
safety condition — ids enumerate the run elements, and each paragraph is
either skipped (TOC), handled by the standard path with pairwise
non-overlapping matches, or handled by the XML fallback with at most one
match — the pass raises no exception and returns a document and a count. -/
theorem replace_returns_count_under_safe_matches (dbg : Bool) (doc : Document)
    (old_text new_text : Txt)
    (hsafe : ∀ p ∈ doc.allParas, ParaSafe old_text p) :
    ∃ doc1 cnt lg,
      find_and_replace_text_preserve_formatting dbg doc old_text new_text =
        .ok (doc1, cnt, lg) := by
  have hbody : ∀ p ∈ doc.paragraphs,
      ∃ out, process_paragraph dbg old_text new_text p = .ok out := by
    intro p hp
    exact process_paragraph_ok dbg old_text new_text p
      (hsafe p (List.mem_append_left _ hp))
  obtain ⟨⟨body1, n1, lgB⟩, hB⟩ := foldProc_ok _ doc.paragraphs hbody
  have htbl : ∀ t ∈ doc.tables,
      ∃ out, foldProc (processCells dbg old_text new_text) t = .ok out := by
    intro t ht
    apply foldProc_ok
    intro row hrow
    unfold processCells
    apply foldProc_ok
    intro cell hcell
    unfold processParas
    apply foldProc_ok
    intro p hp
    have h1 : row ∈ doc.tables.flatten := List.mem_flatten.mpr ⟨t, ht, hrow⟩
    have h2 : cell ∈ doc.tables.flatten.flatten := List.mem_flatten.mpr ⟨row, h1, hcell⟩
    have h3 : p ∈ doc.tables.flatten.flatten.flatten :=
      List.mem_flatten.mpr ⟨cell, h2, hp⟩
    exact process_paragraph_ok dbg old_text new_text p
      (hsafe p (List.mem_append_right _ h3))
  obtain ⟨⟨tables1, n2, lgT⟩, hT⟩ :=
    foldProc_ok (foldProc (processCells dbg old_text new_text)) doc.tables htbl
  unfold find_and_replace_text_preserve_formatting processParas processTables processRows
  rw [hB]
  dsimp only
  rw [hT]
  dsimp only
  exact ⟨_, _, _, rfl⟩

theorem replace_returns_count_under_safe_matches_witness :
    (∀ p ∈ wSafeDoc.allParas, ParaSafe "world".data p) ∧
    ∃ doc1 cnt lg,
      find_and_replace_text_preserve_formatting false wSafeDoc "world".data "X".data =
        .ok (doc1, cnt, lg) := by
  have hsafe : ∀ p ∈ wSafeDoc.allParas, ParaSafe "world".data p := by
    intro p hp
    have hp1 : p = ⟨none, false, wFrameRuns⟩ := by
      simp only [wSafeDoc, Document.allParas, List.flatten_nil, List.append_nil,
        List.mem_singleton] at hp
      exact hp
    subst hp1
    refine ⟨?_, Or.inr (Or.inl ⟨rfl, ?_⟩)⟩
    · intro i r h
      rcases i with _ | _ | _ | n
      · injection h with h2
        rw [← h2]
      · injection h with h2
        rw [← h2]
      · injection h with h2
        rw [← h2]
      · simp [wFrameRuns] at h
    · rw [show collectMatches
          (flatNorm (Paragraph.directRuns ⟨none, false, wFrameRuns⟩))
          (normalize_text_for_search "world".data) = [(6, 11)] from rfl]
      simp
  exact ⟨hsafe, replace_returns_count_under_safe_matches false wSafeDoc "world".data
    "X".data hsafe⟩

end DocxRepl
